import Mathlib

/-!
Shallow embedding of the `ranked-pairs-rs` crate (Ranked Pairs / Tideman
election method) and proofs about it.

Source files embedded: `src/graph.rs` (the `AcyclicGraph` structure with its
resumable depth-first search), `src/pairwise.rs` (pairwise tabulation) and
`src/lib.rs` (`TabulatedData`, `tally`, the error type).

Modelling conventions:
* `u16` candidate indices become `Nat` (no arithmetic ever overflows a `u16`
  in the embedded operations; counts become `Nat` as Rust uses `usize`).
* `BTreeSet<(u16, u16)>` becomes a strictly lex-sorted `List (Nat × Nat)`;
  `BTreeMap<usize, BTreeSet<…>>` becomes a key-sorted association list.
* The Rust `Dfs` iterator is an explicit step function on a state
  (`visited` stack plus current node, exactly the fields of `struct Dfs`);
  its full yield sequence is produced with a fuel parameter.  On the acyclic
  graphs the crate constructs, the Rust iterator terminates and the chosen
  fuel is proven sufficient, so the fuelled trace is the iterator's output.
* `assert!` preconditions appear as hypotheses of the theorems.
-/

namespace RankedPairs

/-- Strict lexicographic order on edge pairs: the `Ord` instance of
`(u16, u16)` that the Rust `BTreeSet<(u16, u16)>` sorts by. -/
def pairLt (a b : Nat × Nat) : Prop :=
  a.1 < b.1 ∨ (a.1 = b.1 ∧ a.2 < b.2)

instance (a b : Nat × Nat) : Decidable (pairLt a b) :=
  inferInstanceAs (Decidable (a.1 < b.1 ∨ (a.1 = b.1 ∧ a.2 < b.2)))

/-- `AcyclicGraph` from `src/graph.rs`: a fixed node count and a sorted set
of directed edges (the `BTreeSet` is modelled as a strictly sorted list). -/
structure AcyclicGraph where
  nodes : Nat
  edges : List (Nat × Nat)
deriving DecidableEq

/-- `AcyclicGraph::new`: a graph with no edges. -/
def AcyclicGraph.new (n : Nat) : AcyclicGraph :=
  { nodes := n, edges := [] }

/-- `BTreeSet::insert` on the sorted edge list: returns whether the element
was new, together with the updated list. -/
def insertEdge : List (Nat × Nat) → Nat × Nat → Bool × List (Nat × Nat)
  | [], e => (true, [e])
  | x :: xs, e =>
    if pairLt e x then (true, e :: x :: xs)
    else if e = x then (false, x :: xs)
    else
      let r := insertEdge xs e
      (r.1, x :: r.2)

/-- `AcyclicGraph::outgoing`: destinations of the edges leaving `src`, in
the sorted order of the edge set (ascending destination). -/
def AcyclicGraph.outgoing (g : AcyclicGraph) (src : Nat) : List Nat :=
  g.edges.filterMap fun e => if e.1 = src then some e.2 else none

/-- The state of the Rust `Dfs` iterator: the stack of edges taken so far
(`visited`, most recent first) and the current node. -/
structure DfsState where
  visited : List (Nat × Nat)
  node : Nat
deriving DecidableEq

/-- The cursor scan in `Dfs::next`'s backtracking arm: the first edge
strictly greater than `last` (in sorted order) whose source is `last.0`. -/
def findNextEdge (g : AcyclicGraph) (last : Nat × Nat) : Option (Nat × Nat) :=
  (g.edges.filter fun e => decide (pairLt last e)).find? fun e => e.1 == last.1

/-- The `None` arm of `Dfs::next`: pop stack entries until one of them has a
further outgoing edge, returning that edge and the new stack. -/
def backtrack (g : AcyclicGraph) : List (Nat × Nat) → Option ((Nat × Nat) × List (Nat × Nat))
  | [] => none
  | last :: rest =>
    match findNextEdge g last with
    | some e => some (e, e :: rest)
    | none => backtrack g rest

/-- One call of `Dfs::next`.  It yields the destination of the edge pushed on
the stack; we also record the edge itself (its second component is the yielded
node). -/
def dfsNext (g : AcyclicGraph) (st : DfsState) : Option ((Nat × Nat) × DfsState) :=
  match (g.outgoing st.node).head? with
  | some dst => some ((st.node, dst), ⟨(st.node, dst) :: st.visited, dst⟩)
  | none =>
    match backtrack g st.visited with
    | some (e, stk) => some (e, ⟨stk, e.2⟩)
    | none => none

/-- Iterate `Dfs::next`, collecting the edges taken; `fuel` bounds the number
of calls (the Rust iterator has no bound; on acyclic graphs the fuel used
below is proven sufficient). -/
def dfsTraceAux (g : AcyclicGraph) : Nat → DfsState → List (Nat × Nat)
  | 0, _ => []
  | fuel + 1, st =>
    match dfsNext g st with
    | none => []
    | some (e, st') => e :: dfsTraceAux g fuel st'

/-- Reference preorder listing of all paths out of `v`, with fuel bounding
path length: the sequence of edges a complete depth-first traversal takes. -/
def Tf (g : AcyclicGraph) : Nat → Nat → List (Nat × Nat)
  | 0, _ => []
  | f + 1, v => (g.outgoing v).flatMap fun d => (v, d) :: Tf g f d

/-- `Tf` with fuel `g.edges.length`: on an acyclic graph every path has at
most `edges.length` edges, so this is the complete traversal. -/
def Tfull (g : AcyclicGraph) (v : Nat) : List (Nat × Nat) :=
  Tf g g.edges.length v

/-- Sufficient fuel for the `Dfs` iterator on an acyclic graph: one call per
edge of the complete traversal plus a final call returning `None`. -/
def dfsFuel (g : AcyclicGraph) (start : Nat) : Nat :=
  (Tfull g start).length + 1

/-- The full sequence of edges the Rust `Dfs` iterator takes from `start`. -/
def dfsEdgeList (g : AcyclicGraph) (start : Nat) : List (Nat × Nat) :=
  dfsTraceAux g (dfsFuel g start) ⟨[], start⟩

/-- `AcyclicGraph::dfs` as the Rust caller sees it: the sequence of nodes the
iterator yields (each yield is the destination of the edge just taken). -/
def dfsList (g : AcyclicGraph) (start : Nat) : List Nat :=
  (dfsEdgeList g start).map (·.2)

/-- `AcyclicGraph::try_add_edge` (`src/graph.rs:20`): add the edge unless
`src == dst` or `dst` already reaches `src` (cycle check by a DFS from
`dst`); returns whether the edge was added and was new.  The Rust `assert!`
bounds `src < nodes`, `dst < nodes` are hypotheses of the theorems below. -/
def AcyclicGraph.tryAddEdge (g : AcyclicGraph) (src dst : Nat) : Bool × AcyclicGraph :=
  if src ≠ dst ∧ ∀ e ∈ dfsList g dst, e ≠ src then
    let r := insertEdge g.edges (src, dst)
    (r.1, { g with edges := r.2 })
  else (false, g)

/-- `AcyclicGraph::roots` (`src/graph.rs:31`): the full node range minus
every edge's destination, in ascending order (the `RangeSet` iteration). -/
def AcyclicGraph.roots (g : AcyclicGraph) : List Nat :=
  (List.range g.nodes).filter fun v => g.edges.all fun e => e.2 ≠ v

/-! ### Pairwise tabulation (`src/pairwise.rs`) -/

/-- `count_pairwise_election`: for each ballot, the first entry equal to `c1`
or `c2` decides which counter is bumped; a ballot listing neither leaves both
counters alone. -/
def countStep (c1 c2 : Nat) (acc : Nat × Nat) (ballot : List Nat) : Nat × Nat :=
  match ballot.find? fun e => e == c1 || e == c2 with
  | some v => if v = c1 then (acc.1 + 1, acc.2) else (acc.1, acc.2 + 1)
  | none => acc

def countPairwiseElection (ballots : List (List Nat)) (c1 c2 : Nat) : Nat × Nat :=
  ballots.foldl (countStep c1 c2) (0, 0)

/-- All pairs `(c1, c2)` with `c1 < c2 < n`, in the order of the two nested
loops of `tabulate_pairwise_results`. -/
def allPairs (n : Nat) : List (Nat × Nat) :=
  (List.range n).flatMap fun c1 => ((List.range n).drop (c1 + 1)).map fun c2 => (c1, c2)

/-- `BTreeMap::entry(m).or_default().insert(e)` on the key-sorted association
list modelling `BTreeMap<usize, BTreeSet<(u16, u16)>>`. -/
def insertMargin : List (Nat × List (Nat × Nat)) → Nat → Nat × Nat → List (Nat × List (Nat × Nat))
  | [], m, e => [(m, [e])]
  | (k, s) :: rest, m, e =>
    if m < k then (m, [e]) :: (k, s) :: rest
    else if m = k then (k, (insertEdge s e).2) :: rest
    else (k, s) :: insertMargin rest m e

/-- `tabulate_pairwise_results` (`src/pairwise.rs:3`): margin groups keyed by
margin of victory; ties contribute nothing.  (The Rust `assert!` around the
set insert only checks newness of the inserted pair, which holds since each
unordered pair is visited once.) -/
def tabStep (ballots : List (List Nat)) (table : List (Nat × List (Nat × Nat)))
    (p : Nat × Nat) : List (Nat × List (Nat × Nat)) :=
  if (countPairwiseElection ballots p.1 p.2).1 < (countPairwiseElection ballots p.1 p.2).2 then
    insertMargin table
      ((countPairwiseElection ballots p.1 p.2).2 - (countPairwiseElection ballots p.1 p.2).1)
      (p.2, p.1)
  else if (countPairwiseElection ballots p.1 p.2).2 < (countPairwiseElection ballots p.1 p.2).1 then
    insertMargin table
      ((countPairwiseElection ballots p.1 p.2).1 - (countPairwiseElection ballots p.1 p.2).2)
      (p.1, p.2)
  else table

def tabulatePairwiseResults (ballots : List (List Nat)) (candidates : Nat) :
    List (Nat × List (Nat × Nat)) :=
  if candidates < 2 then []
  else (allPairs candidates).foldl (tabStep ballots) []

/-! ### `TabulatedData` and tallying (`src/lib.rs`) -/

/-- The error type of `src/lib.rs`. -/
inductive Error where
  | invalidBallot
  | invalidCandidate
deriving DecidableEq

/-- Modelled from the spec: per-ballot validation.  The validating code is
not in `src/` (the `pairwise.rs` present returns a plain map, while
`lib.rs`'s `from_ballots` applies `?` to it and the tests expect the two
errors), so the check follows the spec's words (sections 6 and 7): every
entry must be `< n` (else `InvalidCandidate`) and no entry may repeat
(else `InvalidBallot`), scanning left to right and failing fast. -/
def validateBallot (n : Nat) : List Nat → List Nat → Option Error
  | _, [] => none
  | seen, x :: xs =>
    if n ≤ x then some .invalidCandidate
    else if x ∈ seen then some .invalidBallot
    else validateBallot n (x :: seen) xs

/-- Modelled from the spec: validation is exhaustive-but-fail-fast, returning
the first error encountered while scanning the ballots in order. -/
def validateBallots (ballots : List (List Nat)) (n : Nat) : Option Error :=
  ballots.findSome? fun b => validateBallot n [] b

/-- `TabulatedData` (`src/lib.rs:21`): the margin table (ascending margin
keys) plus the candidate count. -/
structure TabulatedData where
  table : List (Nat × List (Nat × Nat))
  candidates : Nat
deriving DecidableEq

/-- `TabulatedData::from_ballots` (`src/lib.rs:34`): validate, then
tabulate. -/
def TabulatedData.fromBallots (ballots : List (List Nat)) (candidates : Nat) :
    Except Error TabulatedData :=
  match validateBallots ballots candidates with
  | some e => .error e
  | none => .ok ⟨tabulatePairwiseResults ballots candidates, candidates⟩

/-- `TabulatedData::pairwise_results` (`src/lib.rs:81`): the margin groups
from widest margin of victory to slimmest. -/
def TabulatedData.pairwiseResults (t : TabulatedData) : List (List (Nat × Nat)) :=
  (t.table.map (·.2)).reverse

/-- The loop body of `tally`: clone a graph and `try_add_edge` each pairing
of one permutation in order, ignoring rejections. -/
def addMatches (g : AcyclicGraph) (ms : List (Nat × Nat)) : AcyclicGraph :=
  ms.foldl (fun g e => (g.tryAddEdge e.1 e.2).2) g

/-- One margin group of `tally`'s main loop: every graph so far is extended
by every permutation of the group (`itertools::permutations` over the whole
group; `List.permutations'` enumerates exactly the same permutations, each
once, in a different order — irrelevant after the `collect` into a
`HashSet`), and the results are deduplicated. -/
def stepGroup (graphs : List AcyclicGraph) (group : List (Nat × Nat)) : List AcyclicGraph :=
  (graphs.flatMap fun g => group.permutations'.map fun perm => addMatches g perm).dedup

/-- `BTreeSet<u16>::insert` on a sorted list of candidates. -/
def insertSortedNat : List Nat → Nat → List Nat
  | [], x => [x]
  | y :: ys, x =>
    if x < y then x :: y :: ys
    else if x = y then y :: ys
    else y :: insertSortedNat ys x

/-- The working set of graphs after `tally`'s main loop: every margin group,
largest first, applied to the singleton set holding the fresh graph. -/
def finalGraphs (t : TabulatedData) : List AcyclicGraph :=
  t.pairwiseResults.foldl stepGroup [AcyclicGraph.new t.candidates]

/-- `TabulatedData::tally` (`src/lib.rs:50`): run every group, largest margin
first, over the working set of graphs, then collect the union of the root
sets into a sorted candidate set. -/
def TabulatedData.tally (t : TabulatedData) : List Nat :=
  ((finalGraphs t).flatMap AcyclicGraph.roots).foldl insertSortedNat []

/-- Top-level `tally` (`src/lib.rs:89`): `from_ballots` then `tally`. -/
def tally (ballots : List (List Nat)) (candidates : Nat) : Except Error (List Nat) :=
  (TabulatedData.fromBallots ballots candidates).map TabulatedData.tally

/-! ### Specification-side notions -/

/-- `Reaches g a b`: `b` is reachable from `a` along a nonempty chain of
edges.  This is the reachability notion of the spec's cycle-freedom
invariant. -/
inductive Reaches (g : AcyclicGraph) : Nat → Nat → Prop
  | single {a b : Nat} : (a, b) ∈ g.edges → Reaches g a b
  | cons {a b c : Nat} : (a, b) ∈ g.edges → Reaches g b c → Reaches g a c

/-- No node reaches itself: the edge set contains no directed cycle. -/
def Acyclic (g : AcyclicGraph) : Prop := ∀ v, ¬ Reaches g v v

/-- Representation invariant of the `BTreeSet`: the edge list is strictly
sorted in the pair order. -/
def WF (g : AcyclicGraph) : Prop := List.Chain' pairLt g.edges

instance (g : AcyclicGraph) : Decidable (WF g) :=
  inferInstanceAs (Decidable (List.Chain' pairLt g.edges))

/-- A nonempty edge chain as a node list: `chainPath g v ws` holds when the
successive elements of `v :: ws` are all edges of `g`. -/
def chainPath (g : AcyclicGraph) : Nat → List Nat → Prop
  | _, [] => True
  | v, w :: ws => (v, w) ∈ g.edges ∧ chainPath g w ws

/-- The invariant `tally` maintains for every working graph: a sorted,
acyclic edge set between nodes below the candidate count. -/
def GoodGraph (n : Nat) (g : AcyclicGraph) : Prop :=
  WF g ∧ Acyclic g ∧ g.nodes = n ∧ ∀ e ∈ g.edges, e.1 < n ∧ e.2 < n

/-- A sequence of `tryAddEdge` calls applied to a fresh graph. -/
def applyOps (n : Nat) (ops : List (Nat × Nat)) : AcyclicGraph :=
  ops.foldl (fun g e => (g.tryAddEdge e.1 e.2).2) (AcyclicGraph.new n)

/-- The edges still pending on a DFS stack: for each stack entry `(s, d)`,
deepest first, the complete traversals of the outgoing edges of `s` beyond
`d`.  Used to relate the iterator to the recursive traversal `Tfull`. -/
def contTrace (g : AcyclicGraph) : List (Nat × Nat) → List (Nat × Nat)
  | [] => []
  | (s, d) :: rest =>
    (((g.outgoing s).filter fun x => decide (d < x)).flatMap fun d' =>
      (s, d') :: Tfull g d') ++ contTrace g rest

/-- Written from the spec's words: the least destination of an outgoing edge
of `v`, or — when a lower `bound` is given — the least one strictly above the
bound (the "next unvisited outgoing edge"). -/
def leastOutgoingAbove (g : AcyclicGraph) (v : Nat) (bound : Option Nat) : Option Nat :=
  ((g.outgoing v).filter fun d =>
    match bound with
    | none => true
    | some b => decide (b < d)).min?

/-- Written from the spec's words: backtracking resumes at the next
outgoing edge of the most recently active node (the top of the stack),
popping nodes whose outgoing edges are exhausted. -/
def specBacktrack (g : AcyclicGraph) : List (Nat × Nat) → Option ((Nat × Nat) × DfsState)
  | [] => none
  | (s, d) :: rest =>
    match leastOutgoingAbove g s (some d) with
    | some d' => some ((s, d'), ⟨(s, d') :: rest, d'⟩)
    | none => specBacktrack g rest

/-- Written from the spec's words (section 4.2, reachability search): one
deterministic DFS step — descend along the outgoing edge with the least
destination index, else backtrack as in `specBacktrack`.  The refinement
theorem below shows the code's `Dfs::next` computes exactly this. -/
def dfsSpecNext (g : AcyclicGraph) (st : DfsState) : Option ((Nat × Nat) × DfsState) :=
  match leastOutgoingAbove g st.node none with
  | some d => some ((st.node, d), ⟨(st.node, d) :: st.visited, d⟩)
  | none => specBacktrack g st.visited

/-- Membership in the margin table: the group keyed by margin `m` contains
the directed edge `e`. -/
def memTable (tbl : List (Nat × List (Nat × Nat))) (m : Nat) (e : Nat × Nat) : Prop :=
  ∃ s, (m, s) ∈ tbl ∧ e ∈ s

/-- What tabulation is supposed to record for a margin `m` and directed edge
`e`: some unordered pair `c1 < c2 < n` whose win counts differ produced it,
with `e = (winner, loser)` and `m` the absolute margin. -/
def tableEntry (ballots : List (List Nat)) (n m : Nat) (e : Nat × Nat) : Prop :=
  ∃ c1 c2, c1 < c2 ∧ c2 < n ∧
    ((countPairwiseElection ballots c1 c2).1 < (countPairwiseElection ballots c1 c2).2 ∧
        e = (c2, c1) ∧
        m = (countPairwiseElection ballots c1 c2).2 - (countPairwiseElection ballots c1 c2).1 ∨
      (countPairwiseElection ballots c1 c2).2 < (countPairwiseElection ballots c1 c2).1 ∧
        e = (c1, c2) ∧
        m = (countPairwiseElection ballots c1 c2).1 - (countPairwiseElection ballots c1 c2).2)

/-- The (amended) contract of `try_add_edge` at in-range `src`, `dst`:
rejection exactly on `src = dst`, existing reverse reachability, or an
already-present edge; the node count never changes; the edge set gains
exactly the new edge in the accepting case. -/
def tryAddEdgeSpec (g : AcyclicGraph) (src dst : Nat) : Prop :=
  ((src = dst ∨ Reaches g dst src) → g.tryAddEdge src dst = (false, g)) ∧
  (src ≠ dst → ¬ Reaches g dst src →
    ((g.tryAddEdge src dst).1 = true ↔ (src, dst) ∉ g.edges) ∧
    (g.tryAddEdge src dst).2.nodes = g.nodes ∧
    ∀ e, e ∈ (g.tryAddEdge src dst).2.edges ↔ e ∈ g.edges ∨ e = (src, dst))

/-- The contract of tabulation for one pair `c1 < c2 < n` (claim C4): the
win counts are the numbers of ballots whose first mention of either
candidate is `c1` (resp. `c2`), and the pair contributes to the margin
table exactly one directed `(winner, loser)` edge keyed by the absolute
margin — none at all on a tie. -/
def tabulationSpec (ballots : List (List Nat)) (n c1 c2 : Nat) : Prop :=
  (countPairwiseElection ballots c1 c2).1 =
      (ballots.filter fun b => b.find? (fun x => x == c1 || x == c2) == some c1).length ∧
  (countPairwiseElection ballots c1 c2).2 =
      (ballots.filter fun b => b.find? (fun x => x == c1 || x == c2) == some c2).length ∧
  ∀ m e, (e = (c1, c2) ∨ e = (c2, c1)) →
    (memTable (tabulatePairwiseResults ballots n) m e ↔
      ((countPairwiseElection ballots c1 c2).2 < (countPairwiseElection ballots c1 c2).1 ∧
          e = (c1, c2) ∧
          m = (countPairwiseElection ballots c1 c2).1 -
            (countPairwiseElection ballots c1 c2).2) ∨
        ((countPairwiseElection ballots c1 c2).1 < (countPairwiseElection ballots c1 c2).2 ∧
          e = (c2, c1) ∧
          m = (countPairwiseElection ballots c1 c2).2 -
            (countPairwiseElection ballots c1 c2).1))

/-- Every edge chain out of `v` has at most `f` edges. -/
def pathBound (g : AcyclicGraph) (f v : Nat) : Prop :=
  ∀ ws, chainPath g v ws → ws.length ≤ f

/-! ## Basic facts about the pair order -/

theorem pairLt_trans {a b c : Nat × Nat} (h1 : pairLt a b) (h2 : pairLt b c) : pairLt a c := by
  simp only [pairLt] at *
  omega

instance : IsTrans (Nat × Nat) pairLt := ⟨fun _ _ _ => pairLt_trans⟩

theorem pairLt_irrefl (a : Nat × Nat) : ¬ pairLt a a := by
  simp [pairLt]

theorem pairLt_of_not {a b : Nat × Nat} (h1 : ¬ pairLt a b) (h2 : a ≠ b) : pairLt b a := by
  rcases a with ⟨a1, a2⟩; rcases b with ⟨b1, b2⟩
  simp only [pairLt] at h1 ⊢
  have h3 : ¬ (a1 = b1 ∧ a2 = b2) := by
    intro hc; exact h2 (by rw [hc.1, hc.2])
  omega

/-! ## `insertEdge` -/

theorem mem_insertEdge (l : List (Nat × Nat)) (e y : Nat × Nat) :
    y ∈ (insertEdge l e).2 ↔ y = e ∨ y ∈ l := by
  induction l with
  | nil => simp [insertEdge]
  | cons x xs ih =>
    by_cases h1 : pairLt e x
    · simp only [insertEdge, if_pos h1, List.mem_cons]
    · by_cases h2 : e = x
      · subst h2
        simp [insertEdge, h1]
      · simp only [insertEdge, if_neg h1, if_neg h2, List.mem_cons]
        rw [ih]; tauto

theorem pairwise_insertEdge {l : List (Nat × Nat)} (e : Nat × Nat)
    (h : List.Pairwise pairLt l) : List.Pairwise pairLt (insertEdge l e).2 := by
  induction l with
  | nil => simp [insertEdge]
  | cons x xs ih =>
    rcases List.pairwise_cons.mp h with ⟨hx, hxs⟩
    by_cases h1 : pairLt e x
    · simp only [insertEdge, if_pos h1]
      exact List.pairwise_cons.mpr ⟨fun y hy => by
        rcases List.mem_cons.mp hy with rfl | hy
        · exact h1
        · exact pairLt_trans h1 (hx y hy), h⟩
    · by_cases h2 : e = x
      · subst h2; simpa [insertEdge, h1] using h
      · simp only [insertEdge, if_neg h1, if_neg h2]
        refine List.pairwise_cons.mpr ⟨fun y hy => ?_, ih hxs⟩
        rcases (mem_insertEdge xs e y).mp hy with rfl | hy
        · exact pairLt_of_not h1 h2
        · exact hx y hy

theorem insertEdge_fst {l : List (Nat × Nat)} (e : Nat × Nat)
    (h : List.Pairwise pairLt l) : (insertEdge l e).1 = true ↔ e ∉ l := by
  induction l with
  | nil => simp [insertEdge]
  | cons x xs ih =>
    rcases List.pairwise_cons.mp h with ⟨hx, hxs⟩
    by_cases h1 : pairLt e x
    · simp only [insertEdge, if_pos h1, true_iff, List.mem_cons]
      rintro (rfl | he)
      · exact pairLt_irrefl e h1
      · exact pairLt_irrefl e (pairLt_trans h1 (hx e he))
    · by_cases h2 : e = x
      · subst h2; simp [insertEdge, h1]
      · simp only [insertEdge, if_neg h1, if_neg h2, List.mem_cons]
        rw [ih hxs]
        tauto

/-! ## `outgoing` -/

theorem mem_outgoing {g : AcyclicGraph} {s d : Nat} :
    d ∈ g.outgoing s ↔ (s, d) ∈ g.edges := by
  simp only [AcyclicGraph.outgoing, List.mem_filterMap]
  constructor
  · rintro ⟨⟨a, b⟩, hab, hd⟩
    split at hd
    · next h =>
        injection hd with hbd
        subst hbd; subst h; exact hab
    · cases hd
  · intro h; exact ⟨(s, d), h, by simp⟩

theorem outgoing_pairwise {g : AcyclicGraph} (hwf : WF g) (s : Nat) :
    List.Pairwise (· < ·) (g.outgoing s) := by
  have hp : List.Pairwise pairLt g.edges := List.chain'_iff_pairwise.mp hwf
  rw [AcyclicGraph.outgoing, List.pairwise_filterMap]
  refine hp.imp_of_mem ?_
  rintro ⟨a1, a2⟩ ⟨b1, b2⟩ _ _ hab d hd d' hd'
  by_cases h1 : a1 = s
  · by_cases h2 : b1 = s
    · rw [if_pos h1] at hd
      rw [if_pos h2] at hd'
      simp only [Option.mem_def, Option.some.injEq] at hd hd'
      subst hd; subst hd'
      rcases hab with h | ⟨_, h⟩ <;> omega
    · rw [if_neg h2] at hd'; cases hd'
  · rw [if_neg h1] at hd; cases hd

/-! ## Chains, reachability and acyclicity -/

theorem reaches_trans {g : AcyclicGraph} {a b c : Nat}
    (h1 : Reaches g a b) (h2 : Reaches g b c) : Reaches g a c := by
  induction h1 with
  | single h => exact Reaches.cons h h2
  | cons h _ ih => exact Reaches.cons h (ih h2)

theorem reaches_last_edge {g : AcyclicGraph} {a b : Nat} (h : Reaches g a b) :
    ∃ x, (x, b) ∈ g.edges := by
  induction h with
  | single h => exact ⟨_, h⟩
  | cons _ _ ih => exact ih

theorem chainPath_append {g : AcyclicGraph} (v : Nat) (ws1 ws2 : List Nat) :
    chainPath g v (ws1 ++ ws2) ↔ chainPath g v ws1 ∧ chainPath g (ws1.getLastD v) ws2 := by
  induction ws1 generalizing v with
  | nil => simp [chainPath]
  | cons w ws ih =>
    simp only [List.cons_append, chainPath, List.append_eq, List.getLastD_cons, and_assoc, ih w]

theorem chainPath_reaches {g : AcyclicGraph} {v : Nat} {ws : List Nat}
    (h : chainPath g v ws) (hne : ws ≠ []) : Reaches g v (ws.getLastD v) := by
  induction ws generalizing v with
  | nil => exact absurd rfl hne
  | cons w ws ih =>
    rcases h with ⟨hvw, hws⟩
    rw [List.getLastD_cons]
    cases ws with
    | nil => exact Reaches.single hvw
    | cons w' ws' => exact Reaches.cons hvw (ih hws (by simp))

theorem reaches_iff_chainPath {g : AcyclicGraph} {v w : Nat} :
    Reaches g v w ↔ ∃ ws, ws ≠ [] ∧ chainPath g v ws ∧ ws.getLastD v = w := by
  constructor
  · intro h
    induction h with
    | single h => exact ⟨[_], by simp, ⟨h, trivial⟩, by simp⟩
    | @cons a b c h _ ih =>
      rcases ih with ⟨ws, hne, hcp, hlast⟩
      refine ⟨b :: ws, by simp, ⟨h, hcp⟩, ?_⟩
      rw [List.getLastD_cons]
      cases ws with
      | nil => exact absurd rfl hne
      | cons x xs => simpa using hlast
  · rintro ⟨ws, hne, hcp, hlast⟩
    subst hlast
    exact chainPath_reaches hcp hne

theorem chainPath_mem_dst {g : AcyclicGraph} {v : Nat} {ws : List Nat}
    (h : chainPath g v ws) : ∀ w ∈ ws, w ∈ g.edges.map (·.2) := by
  induction ws generalizing v with
  | nil => simp
  | cons x xs ih =>
    rcases h with ⟨hvx, hxs⟩
    intro w hw
    rcases List.mem_cons.mp hw with rfl | hw
    · exact List.mem_map.mpr ⟨(v, w), hvx, rfl⟩
    · exact ih hxs w hw

theorem exists_dup_split {α : Type} {l : List α} (h : ¬ l.Nodup) :
    ∃ (a : α) (l1 l2 l3 : List α), l = l1 ++ a :: (l2 ++ a :: l3) := by
  induction l with
  | nil => exact absurd List.nodup_nil h
  | cons x xs ih =>
    by_cases hx : x ∈ xs
    · rcases List.append_of_mem hx with ⟨s, t, rfl⟩
      exact ⟨x, [], s, t, rfl⟩
    · have : ¬ xs.Nodup := fun hn => h (List.nodup_cons.mpr ⟨hx, hn⟩)
      rcases ih this with ⟨a, l1, l2, l3, rfl⟩
      exact ⟨a, x :: l1, l2, l3, rfl⟩

theorem acyclic_chainPath_nodup {g : AcyclicGraph} (hac : Acyclic g) {v : Nat}
    {ws : List Nat} (h : chainPath g v ws) : ws.Nodup := by
  by_contra hnd
  rcases exists_dup_split hnd with ⟨a, l1, l2, l3, rfl⟩
  rcases (chainPath_append v l1 (a :: (l2 ++ a :: l3))).mp h with ⟨_, h2⟩
  rcases h2 with ⟨hea, h3⟩
  have h4 : chainPath g a ((l2 ++ [a]) ++ l3) := by simpa using h3
  rcases (chainPath_append a (l2 ++ [a]) l3).mp h4 with ⟨h5, _⟩
  have hne : l2 ++ [a] ≠ [] := by simp
  have hlast : (l2 ++ [a]).getLastD a = a := by simp [List.getLastD_eq_getLast?]
  have := chainPath_reaches h5 hne
  rw [hlast] at this
  exact hac a this

/-- Every path in an acyclic graph takes at most `edges.length` steps. -/
theorem pathBound_of_acyclic {g : AcyclicGraph} (hac : Acyclic g) (v : Nat)
    {ws : List Nat} (h : chainPath g v ws) : ws.length ≤ g.edges.length := by
  have hnd := acyclic_chainPath_nodup hac h
  have hsub : ws.toFinset ⊆ (g.edges.map (·.2)).toFinset := by
    intro x hx
    exact List.mem_toFinset.mpr
      (chainPath_mem_dst h x (List.mem_toFinset.mp hx))
  calc ws.length = ws.toFinset.card := (List.toFinset_card_of_nodup hnd).symm
    _ ≤ (g.edges.map (·.2)).toFinset.card := Finset.card_le_card hsub
    _ ≤ (g.edges.map (·.2)).length := List.toFinset_card_le _
    _ = g.edges.length := List.length_map _ _

/-! ## The recursive traversal `Tf` -/

theorem flatMap_congr_mem {α β : Type} {l : List α} {f f' : α → List β}
    (h : ∀ a ∈ l, f a = f' a) : l.flatMap f = l.flatMap f' := by
  induction l with
  | nil => rfl
  | cons x xs ih =>
    simp only [List.flatMap_cons]
    rw [h x (by simp), ih fun a ha => h a (by simp [ha])]

theorem Tf_outgoing_nil {g : AcyclicGraph} {v : Nat} (h : g.outgoing v = []) :
    ∀ f, Tf g f v = [] := by
  intro f
  cases f with
  | zero => rfl
  | succ f => simp [Tf, h]

theorem Tf_sound {g : AcyclicGraph} {f v : Nat} {e : Nat × Nat}
    (h : e ∈ Tf g f v) :
    e ∈ g.edges ∧ (e.1 = v ∨ Reaches g v e.1) ∧ Reaches g v e.2 := by
  induction f generalizing v with
  | zero => cases h
  | succ f ih =>
    simp only [Tf, List.mem_flatMap] at h
    rcases h with ⟨d, hd, he⟩
    have hedge : (v, d) ∈ g.edges := mem_outgoing.mp hd
    rcases List.mem_cons.mp he with rfl | he
    · exact ⟨hedge, Or.inl rfl, Reaches.single hedge⟩
    · rcases ih he with ⟨h1, h2, h3⟩
      refine ⟨h1, Or.inr ?_, Reaches.cons hedge h3⟩
      rcases h2 with rfl | h2
      · exact Reaches.single hedge
      · exact Reaches.cons hedge h2

theorem chainPath_mem_Tf {g : AcyclicGraph} {f v : Nat} {ws : List Nat}
    (h : chainPath g v ws) (hne : ws ≠ []) (hlen : ws.length ≤ f) :
    ∃ e ∈ Tf g f v, e.2 = ws.getLastD v := by
  induction ws generalizing v f with
  | nil => exact absurd rfl hne
  | cons w ws ih =>
    rcases h with ⟨hvw, hws⟩
    cases f with
    | zero => simp at hlen
    | succ f =>
      rw [List.getLastD_cons]
      cases ws with
      | nil =>
        refine ⟨(v, w), ?_, rfl⟩
        simp only [Tf, List.mem_flatMap]
        exact ⟨w, mem_outgoing.mpr hvw, by simp⟩
      | cons w' ws' =>
        rcases ih (f := f) (v := w) hws (by simp)
            (by simp only [List.length_cons] at hlen ⊢; omega) with ⟨e, he, hlast⟩
        refine ⟨e, ?_, hlast⟩
        simp only [Tf, List.mem_flatMap]
        exact ⟨w, mem_outgoing.mpr hvw, List.mem_cons.mpr (Or.inr he)⟩

theorem pathBound_acyclic {g : AcyclicGraph} (hac : Acyclic g) (v : Nat) :
    pathBound g g.edges.length v :=
  fun _ h => pathBound_of_acyclic hac v h

theorem Tf_stab {g : AcyclicGraph} {f v : Nat} (hb : pathBound g f v) :
    ∀ k, Tf g (f + k) v = Tf g f v := by
  induction f generalizing v with
  | zero =>
    have hout : g.outgoing v = [] := by
      by_contra h
      rcases List.exists_mem_of_ne_nil _ h with ⟨d, hd⟩
      have hcp : chainPath g v [d] := ⟨mem_outgoing.mp hd, trivial⟩
      have := hb [d] hcp
      simp at this
    intro k
    rw [Tf_outgoing_nil hout, Tf_outgoing_nil hout]
  | succ f ih =>
    intro k
    have harr : f + 1 + k = (f + k) + 1 := by omega
    rw [harr]
    show Tf g ((f + k) + 1) v = Tf g (f + 1) v
    simp only [Tf]
    apply flatMap_congr_mem
    intro d hd
    have hbd : pathBound g f d := by
      intro ws hws
      have h2 : chainPath g v (d :: ws) := ⟨mem_outgoing.mp hd, hws⟩
      have := hb (d :: ws) h2
      simp only [List.length_cons] at this; omega
    rw [ih hbd k]

theorem Tfull_unfold {g : AcyclicGraph} (hac : Acyclic g) (v : Nat) :
    Tfull g v = (g.outgoing v).flatMap fun d => (v, d) :: Tfull g d := by
  by_cases hout : g.outgoing v = []
  · rw [Tfull, Tf_outgoing_nil hout, hout]; rfl
  · rcases List.exists_mem_of_ne_nil _ hout with ⟨d0, hd0⟩
    have hne : g.edges ≠ [] := by
      intro h
      have := mem_outgoing.mp hd0
      rw [h] at this; cases this
    obtain ⟨m', hm⟩ : ∃ m', g.edges.length = m' + 1 :=
      ⟨g.edges.length - 1, by
        have : 0 < g.edges.length := List.length_pos.mpr hne
        omega⟩
    rw [Tfull, hm]
    simp only [Tf]
    apply flatMap_congr_mem
    intro d hd
    have hbd : pathBound g m' d := by
      intro ws hws
      have h2 : chainPath g v (d :: ws) := ⟨mem_outgoing.mp hd, hws⟩
      have := pathBound_of_acyclic hac v h2
      rw [hm] at this
      simp only [List.length_cons] at this; omega
    have hstab := Tf_stab hbd 1
    rw [Tfull, hm, hstab]

/-! ## The `Dfs` iterator computes the complete traversal -/

theorem filter_lt_cons_self {d : Nat} {t : List Nat}
    (h : List.Pairwise (· < ·) (d :: t)) :
    (d :: t).filter (fun x => decide (d < x)) = t := by
  rcases List.pairwise_cons.mp h with ⟨hd, _⟩
  rw [List.filter_cons]
  rw [decide_eq_false (lt_irrefl d)]
  simp only [Bool.false_eq_true, if_false]
  exact List.filter_eq_self.mpr fun a ha => decide_eq_true (hd a ha)

theorem filter_lt_head_tail {l : List Nat} {d d' : Nat} {t : List Nat}
    (hp : List.Pairwise (· < ·) l)
    (h : l.filter (fun x => decide (d < x)) = d' :: t) :
    t = l.filter (fun x => decide (d' < x)) := by
  induction l with
  | nil => simp at h
  | cons x xs ih =>
    rcases List.pairwise_cons.mp hp with ⟨hx, hxs⟩
    by_cases hdx : d < x
    · rw [List.filter_cons, if_pos (decide_eq_true hdx)] at h
      injection h with h1 h2
      subst h1
      have e1 : xs.filter (fun a => decide (d < a)) = xs :=
        List.filter_eq_self.mpr fun a ha => decide_eq_true (lt_trans hdx (hx a ha))
      have e2 : xs.filter (fun a => decide (x < a)) = xs :=
        List.filter_eq_self.mpr fun a ha => decide_eq_true (hx a ha)
      rw [List.filter_cons, decide_eq_false (lt_irrefl x)]
      simp only [Bool.false_eq_true, if_false]
      rw [e2, ← h2, e1]
    · rw [List.filter_cons, if_neg (by simpa using hdx)] at h
      have hd' : d' ∈ xs := by
        have hmem : d' ∈ xs.filter (fun a => decide (d < a)) := by rw [h]; simp
        exact List.mem_of_mem_filter hmem
      have hxd' : x < d' := hx d' hd'
      rw [List.filter_cons, if_neg (by simp only [decide_eq_true_eq]; omega)]
      exact ih hxs h

theorem findNextEdge_aux {s d : Nat} :
    ∀ (es : List (Nat × Nat)), List.Pairwise pairLt es →
      ((es.filter fun e => decide (pairLt (s, d) e)).find? fun e => e.1 == s) =
        (((es.filterMap fun e => if e.1 = s then some e.2 else none).filter
          fun x => decide (d < x)).head?).map fun d' => (s, d') := by
  intro es
  induction es with
  | nil => intro _; rfl
  | cons e es' ih =>
    intro hp
    rcases List.pairwise_cons.mp hp with ⟨ha, hp'⟩
    rcases e with ⟨a, b⟩
    by_cases h1 : pairLt (s, d) (a, b)
    · by_cases h2 : a = s
      · subst h2
        have hdb : d < b := by
          rcases h1 with h | ⟨_, h⟩
          · omega
          · exact h
        rw [List.filter_cons, if_pos (decide_eq_true h1)]
        rw [List.find?_cons_of_pos _ (by simp)]
        have hfm : (((a, b) :: es').filterMap fun e => if e.1 = a then some e.2 else none) =
            b :: (es'.filterMap fun e => if e.1 = a then some e.2 else none) := by simp
        rw [hfm, List.filter_cons, if_pos (decide_eq_true hdb)]
        rfl
      · have hsa : s < a := by
          rcases h1 with h | ⟨h, _⟩
          · exact h
          · exact absurd h.symm h2
        have hnone1 : ∀ y ∈ es', y.1 ≠ s := by
          intro y hy
          rcases ha y hy with h | ⟨h, _⟩
          · omega
          · omega
        rw [List.filter_cons, if_pos (decide_eq_true h1)]
        rw [List.find?_cons_of_neg _ (by simp [h2])]
        have hfind : (List.find? (fun e => e.1 == s)
            (es'.filter fun e => decide (pairLt (s, d) e))) = none :=
          List.find?_eq_none.mpr fun x hx => by
            simp only [beq_iff_eq]
            exact hnone1 x (List.mem_of_mem_filter hx)
        rw [hfind]
        have hfm : (((a, b) :: es').filterMap fun e => if e.1 = s then some e.2 else none) =
            [] := by
          rw [List.filterMap_eq_nil_iff]
          intro y hy
          rcases List.mem_cons.mp hy with rfl | hy
          · rw [if_neg h2]
          · rw [if_neg (hnone1 y hy)]
        rw [hfm]
        rfl
    · rw [List.filter_cons, if_neg (by simpa using h1)]
      rw [ih hp']
      by_cases h2 : a = s
      · subst h2
        have hbd : ¬ d < b := by
          intro hc
          exact h1 (Or.inr ⟨rfl, hc⟩)
        have hfm : (((a, b) :: es').filterMap fun e => if e.1 = a then some e.2 else none) =
            b :: (es'.filterMap fun e => if e.1 = a then some e.2 else none) := by simp
        rw [hfm, List.filter_cons, if_neg (by simpa using hbd)]
      · have hfm : (((a, b) :: es').filterMap fun e => if e.1 = s then some e.2 else none) =
            es'.filterMap fun e => if e.1 = s then some e.2 else none := by simp [h2]
        rw [hfm]

theorem findNextEdge_eq {g : AcyclicGraph} (hwf : WF g) (s d : Nat) :
    findNextEdge g (s, d) =
      (((g.outgoing s).filter fun x => decide (d < x)).head?).map fun d' => (s, d') := by
  exact findNextEdge_aux g.edges (List.chain'_iff_pairwise.mp hwf)

theorem backtrack_contTrace {g : AcyclicGraph} (hwf : WF g) :
    ∀ stk, (backtrack g stk = none ∧ contTrace g stk = []) ∨
      ∃ s d' rest, backtrack g stk = some ((s, d'), (s, d') :: rest) ∧
        contTrace g stk = (s, d') :: (Tfull g d' ++ contTrace g ((s, d') :: rest)) := by
  intro stk
  induction stk with
  | nil => exact Or.inl ⟨rfl, rfl⟩
  | cons last rest ih =>
    rcases last with ⟨s, d⟩
    rcases hhead : ((g.outgoing s).filter fun x => decide (d < x)).head? with _ | d'
    · have hfne : findNextEdge g (s, d) = none := by
        rw [findNextEdge_eq hwf, hhead]; rfl
      have hfilter : ((g.outgoing s).filter fun x => decide (d < x)) = [] :=
        List.head?_eq_none_iff.mp hhead
      rcases ih with ⟨h1, h2⟩ | ⟨s', d'', rest', h1, h2⟩
      · refine Or.inl ⟨?_, ?_⟩
        · rw [backtrack, hfne, h1]
        · rw [contTrace, hfilter, h2]; rfl
      · refine Or.inr ⟨s', d'', rest', ?_, ?_⟩
        · rw [backtrack, hfne, h1]
        · rw [contTrace, hfilter, h2]; rfl
    · have hfne : findNextEdge g (s, d) = some (s, d') := by
        rw [findNextEdge_eq hwf, hhead]; rfl
      refine Or.inr ⟨s, d', rest, ?_, ?_⟩
      · rw [backtrack, hfne]
      · obtain ⟨t, hft⟩ : ∃ t, (g.outgoing s).filter (fun x => decide (d < x)) = d' :: t := by
          rcases hc : (g.outgoing s).filter (fun x => decide (d < x)) with _ | ⟨a, t⟩
          · rw [hc] at hhead; cases hhead
          · rw [hc] at hhead
            injection hhead with ha
            exact ⟨t, by rw [ha]⟩
        have ht : t = (g.outgoing s).filter (fun x => decide (d' < x)) :=
          filter_lt_head_tail (outgoing_pairwise hwf s) hft
        rw [contTrace, hft, List.flatMap_cons, ht]
        show ((s, d') :: Tfull g d') ++ _ ++ _ = _
        rw [contTrace]
        simp [List.append_assoc]

theorem dfsTraceAux_succ_none {g : AcyclicGraph} {st : DfsState} {F : Nat}
    (hn : dfsNext g st = none) : dfsTraceAux g (F + 1) st = [] := by
  simp [dfsTraceAux, hn]

theorem dfsTraceAux_succ_some {g : AcyclicGraph} {st st' : DfsState}
    {e : Nat × Nat} {F : Nat} (hn : dfsNext g st = some (e, st')) :
    dfsTraceAux g (F + 1) st = e :: dfsTraceAux g F st' := by
  simp [dfsTraceAux, hn]

theorem dfsTraceAux_eq {g : AcyclicGraph} (hwf : WF g) (hac : Acyclic g) :
    ∀ F v stk, (Tfull g v).length + (contTrace g stk).length < F →
      dfsTraceAux g F ⟨stk, v⟩ = Tfull g v ++ contTrace g stk := by
  intro F
  induction F with
  | zero => intro v stk h; omega
  | succ F ih =>
    intro v stk hlen
    rcases hhead : (g.outgoing v).head? with _ | d
    · have hout : g.outgoing v = [] := List.head?_eq_none_iff.mp hhead
      have hTv : Tfull g v = [] := Tf_outgoing_nil hout _
      rcases backtrack_contTrace hwf stk with ⟨h1, h2⟩ | ⟨s, d', rest, h1, h2⟩
      · have hnext : dfsNext g ⟨stk, v⟩ = none := by
          rw [dfsNext]; simp only [hhead, h1]
        rw [dfsTraceAux_succ_none hnext, hTv, h2]; rfl
      · have hnext : dfsNext g ⟨stk, v⟩ = some ((s, d'), ⟨(s, d') :: rest, d'⟩) := by
          rw [dfsNext]; simp only [hhead, h1]
        rw [dfsTraceAux_succ_some hnext]
        rw [ih d' ((s, d') :: rest) ?_]
        · rw [hTv, h2]; simp
        · rw [hTv, h2] at hlen
          simp only [List.length_nil, List.length_cons, List.length_append] at hlen ⊢
          omega
    · obtain ⟨t, hout⟩ : ∃ t, g.outgoing v = d :: t := by
        rcases hc : g.outgoing v with _ | ⟨a, t⟩
        · rw [hc] at hhead; cases hhead
        · rw [hc] at hhead
          injection hhead with ha
          exact ⟨t, by rw [ha]⟩
      have hp : List.Pairwise (· < ·) (d :: t) := by
        rw [← hout]; exact outgoing_pairwise hwf v
      have htf : (g.outgoing v).filter (fun x => decide (d < x)) = t := by
        rw [hout]; exact filter_lt_cons_self hp
      have hTv : Tfull g v =
          (v, d) :: (Tfull g d ++ t.flatMap fun d0 => (v, d0) :: Tfull g d0) := by
        rw [Tfull_unfold hac v, hout, List.flatMap_cons]
        simp
      have hnext : dfsNext g ⟨stk, v⟩ = some ((v, d), ⟨(v, d) :: stk, d⟩) := by
        rw [dfsNext]; simp only [hhead]
      have hcont : contTrace g ((v, d) :: stk) =
          (t.flatMap fun d0 => (v, d0) :: Tfull g d0) ++ contTrace g stk := by
        rw [contTrace, htf]
      rw [dfsTraceAux_succ_some hnext]
      rw [ih d ((v, d) :: stk) ?_]
      · rw [hTv, hcont]; simp [List.append_assoc]
      · rw [hTv] at hlen
        rw [hcont]
        simp only [List.length_cons, List.length_append] at hlen ⊢
        omega

theorem dfsEdgeList_eq {g : AcyclicGraph} (hwf : WF g) (hac : Acyclic g) (s : Nat) :
    dfsEdgeList g s = Tfull g s := by
  rw [dfsEdgeList, dfsTraceAux_eq hwf hac _ s [] (by simp [dfsFuel, contTrace])]
  simp [contTrace]

/-- Correctness of the cycle-check DFS: on a well-formed acyclic graph the
iterator yields exactly the nodes reachable from `start` by a nonempty edge
chain. -/
theorem mem_dfsList {g : AcyclicGraph} (hwf : WF g) (hac : Acyclic g)
    (s w : Nat) : w ∈ dfsList g s ↔ Reaches g s w := by
  rw [dfsList, dfsEdgeList_eq hwf hac]
  constructor
  · intro h
    rcases List.mem_map.mp h with ⟨e, he, rfl⟩
    exact (Tf_sound he).2.2
  · intro h
    rcases reaches_iff_chainPath.mp h with ⟨ws, hne, hcp, hlast⟩
    rcases chainPath_mem_Tf hcp hne (pathBound_of_acyclic hac s hcp) with ⟨e, he, hl⟩
    exact List.mem_map.mpr ⟨e, he, by rw [hl, hlast]⟩

/-! ## `tryAddEdge` -/

theorem tryAddEdge_nodes (g : AcyclicGraph) (src dst : Nat) :
    (g.tryAddEdge src dst).2.nodes = g.nodes := by
  rw [AcyclicGraph.tryAddEdge]
  split <;> rfl

theorem tryAddEdge_edges_superset (g : AcyclicGraph) (src dst : Nat) :
    ∀ e ∈ g.edges, e ∈ (g.tryAddEdge src dst).2.edges := by
  intro e he
  rw [AcyclicGraph.tryAddEdge]
  split
  · exact (mem_insertEdge _ _ _).mpr (Or.inr he)
  · exact he

theorem tryAddEdge_edges_sub (g : AcyclicGraph) (src dst : Nat) :
    ∀ e ∈ (g.tryAddEdge src dst).2.edges, e ∈ g.edges ∨ e = (src, dst) := by
  intro e he
  rw [AcyclicGraph.tryAddEdge] at he
  split at he
  · rcases (mem_insertEdge _ _ _).mp he with rfl | h
    · exact Or.inr rfl
    · exact Or.inl h
  · exact Or.inl he

theorem tryAddEdge_wf {g : AcyclicGraph} (hwf : WF g) (src dst : Nat) :
    WF (g.tryAddEdge src dst).2 := by
  rw [AcyclicGraph.tryAddEdge]
  split
  · show WF { g with edges := (insertEdge g.edges (src, dst)).2 }
    exact List.chain'_iff_pairwise.mpr
      (pairwise_insertEdge _ (List.chain'_iff_pairwise.mp hwf))
  · exact hwf

theorem tryAddEdge_check {g : AcyclicGraph} (hwf : WF g) (hac : Acyclic g)
    (src dst : Nat) :
    (src ≠ dst ∧ ∀ e ∈ dfsList g dst, e ≠ src) ↔ (src ≠ dst ∧ ¬ Reaches g dst src) := by
  constructor
  · rintro ⟨h1, h2⟩
    exact ⟨h1, fun hr => h2 src ((mem_dfsList hwf hac dst src).mpr hr) rfl⟩
  · rintro ⟨h1, h2⟩
    refine ⟨h1, fun e he heq => ?_⟩
    subst heq
    exact h2 ((mem_dfsList hwf hac dst e).mp he)

theorem reaches_of_subset {g g' : AcyclicGraph} (hsub : ∀ e ∈ g.edges, e ∈ g'.edges)
    {a b : Nat} (h : Reaches g a b) : Reaches g' a b := by
  induction h with
  | single h => exact Reaches.single (hsub _ h)
  | cons h _ ih => exact Reaches.cons (hsub _ h) ih

theorem reaches_insert_decompose {g g' : AcyclicGraph} {s d : Nat}
    (he : ∀ e, e ∈ g'.edges ↔ e ∈ g.edges ∨ e = (s, d)) {a b : Nat}
    (h : Reaches g' a b) :
    Reaches g a b ∨ ((a = s ∨ Reaches g a s) ∧ (d = b ∨ Reaches g d b)) := by
  induction h with
  | @single a b hab =>
    rcases (he _).mp hab with h | h
    · exact Or.inl (Reaches.single h)
    · injection h with h1 h2
      exact Or.inr ⟨Or.inl h1, Or.inl h2.symm⟩
  | @cons a b c hab _ ih =>
    rcases (he _).mp hab with hedge | heq
    · rcases ih with h | ⟨h1, h2⟩
      · exact Or.inl (Reaches.cons hedge h)
      · refine Or.inr ⟨?_, h2⟩
        rcases h1 with rfl | h1
        · exact Or.inr (Reaches.single hedge)
        · exact Or.inr (Reaches.cons hedge h1)
    · injection heq with h1 h2
      subst h1; subst h2
      refine Or.inr ⟨Or.inl rfl, ?_⟩
      rcases ih with h | ⟨_, h2⟩
      · exact Or.inr h
      · exact h2

theorem acyclic_insert {g g' : AcyclicGraph} {s d : Nat}
    (he : ∀ e, e ∈ g'.edges ↔ e ∈ g.edges ∨ e = (s, d))
    (hac : Acyclic g) (hsd : s ≠ d) (hnr : ¬ Reaches g d s) : Acyclic g' := by
  intro v hv
  rcases reaches_insert_decompose he hv with h | ⟨h1, h2⟩
  · exact hac v h
  · rcases h1 with rfl | h1
    · rcases h2 with h2 | h2
      · exact hsd h2.symm
      · exact hnr h2
    · rcases h2 with rfl | h2
      · exact hnr h1
      · exact hnr (reaches_trans h2 h1)

theorem tryAddEdge_mem {g : AcyclicGraph} (hwf : WF g) (hac : Acyclic g)
    (src dst : Nat) :
    ∀ e, e ∈ (g.tryAddEdge src dst).2.edges ↔
      e ∈ g.edges ∨ (e = (src, dst) ∧ src ≠ dst ∧ ¬ Reaches g dst src) := by
  intro e
  rw [AcyclicGraph.tryAddEdge]
  split
  · next hcond =>
    rcases (tryAddEdge_check hwf hac src dst).mp hcond with ⟨h1, h2⟩
    show e ∈ (insertEdge g.edges (src, dst)).2 ↔ _
    rw [mem_insertEdge]
    constructor
    · rintro (rfl | h)
      · exact Or.inr ⟨rfl, h1, h2⟩
      · exact Or.inl h
    · rintro (h | ⟨rfl, _, _⟩)
      · exact Or.inr h
      · exact Or.inl rfl
  · next hcond =>
    have hnc : ¬ (src ≠ dst ∧ ¬ Reaches g dst src) := fun hc =>
      hcond ((tryAddEdge_check hwf hac src dst).mpr hc)
    constructor
    · exact fun h => Or.inl h
    · rintro (h | ⟨rfl, h1, h2⟩)
      · exact h
      · exact absurd ⟨h1, h2⟩ hnc

theorem tryAddEdge_acyclic {g : AcyclicGraph} (hwf : WF g) (hac : Acyclic g)
    (src dst : Nat) : Acyclic (g.tryAddEdge src dst).2 := by
  rw [AcyclicGraph.tryAddEdge]
  split
  · next hcond =>
    rcases (tryAddEdge_check hwf hac src dst).mp hcond with ⟨h1, h2⟩
    refine acyclic_insert (g := g) ?_ hac h1 h2
    intro e
    show e ∈ (insertEdge g.edges (src, dst)).2 ↔ _
    rw [mem_insertEdge]
    tauto
  · exact hac

theorem tryAddEdge_fst {g : AcyclicGraph} (hwf : WF g) (hac : Acyclic g)
    (src dst : Nat) :
    (g.tryAddEdge src dst).1 = true ↔
      src ≠ dst ∧ ¬ Reaches g dst src ∧ (src, dst) ∉ g.edges := by
  rw [AcyclicGraph.tryAddEdge]
  split
  · next hcond =>
    rcases (tryAddEdge_check hwf hac src dst).mp hcond with ⟨h1, h2⟩
    show (insertEdge g.edges (src, dst)).1 = true ↔ _
    rw [insertEdge_fst _ (List.chain'_iff_pairwise.mp hwf)]
    tauto
  · next hcond =>
    have hnc : ¬ (src ≠ dst ∧ ¬ Reaches g dst src) := fun hc =>
      hcond ((tryAddEdge_check hwf hac src dst).mpr hc)
    simp only [Bool.false_eq_true, false_iff]
    tauto

theorem tryAddEdge_reject {g : AcyclicGraph} (hwf : WF g) (hac : Acyclic g)
    {src dst : Nat} (h : src = dst ∨ Reaches g dst src) :
    g.tryAddEdge src dst = (false, g) := by
  rw [AcyclicGraph.tryAddEdge, if_neg]
  intro hcond
  rcases (tryAddEdge_check hwf hac src dst).mp hcond with ⟨h1, h2⟩
  rcases h with h | h
  · exact h1 h
  · exact h2 h

theorem acyclic_new (n : Nat) : Acyclic (AcyclicGraph.new n) := by
  intro v hv
  cases hv with
  | single h => cases h
  | cons h _ => cases h

theorem wf_new (n : Nat) : WF (AcyclicGraph.new n) := List.chain'_nil

/-! ## Pairwise counting -/

theorem find?_congr {α : Type} {p q : α → Bool} (l : List α)
    (h : ∀ a, p a = q a) : l.find? p = l.find? q := by
  induction l with
  | nil => rfl
  | cons x xs ih =>
    by_cases hx : p x = true
    · rw [List.find?_cons_of_pos _ hx, List.find?_cons_of_pos _ (by rw [← h]; exact hx)]
    · rw [List.find?_cons_of_neg _ hx, List.find?_cons_of_neg _ (by rw [← h]; exact hx), ih]

theorem countStep_none {c1 c2 : Nat} {b : List Nat} (acc : Nat × Nat)
    (h : (b.find? fun e => e == c1 || e == c2) = none) :
    countStep c1 c2 acc b = acc := by
  rw [countStep, h]

theorem countStep_first {c1 c2 : Nat} {b : List Nat} (acc : Nat × Nat)
    (h : (b.find? fun e => e == c1 || e == c2) = some c1) :
    countStep c1 c2 acc b = (acc.1 + 1, acc.2) := by
  rw [countStep, h]
  exact if_pos rfl

theorem countStep_second {c1 c2 v : Nat} {b : List Nat} (acc : Nat × Nat)
    (h : (b.find? fun e => e == c1 || e == c2) = some v) (hv : v ≠ c1) :
    countStep c1 c2 acc b = (acc.1, acc.2 + 1) := by
  rw [countStep, h]
  exact if_neg hv

theorem countPairwise_aux {c1 c2 : Nat} (hne : c1 ≠ c2) :
    ∀ (ballots : List (List Nat)) (acc : Nat × Nat),
      ballots.foldl (countStep c1 c2) acc =
      (acc.1 + (ballots.filter fun b => b.find? (fun x => x == c1 || x == c2) == some c1).length,
       acc.2 + (ballots.filter fun b => b.find? (fun x => x == c1 || x == c2) == some c2).length) := by
  intro ballots
  induction ballots with
  | nil => intro acc; simp
  | cons b bs ih =>
    intro acc
    rw [List.foldl_cons, List.filter_cons, List.filter_cons]
    rcases hfind : b.find? fun e => e == c1 || e == c2 with _ | v
    · rw [countStep_none acc hfind]
      rw [if_neg (by simp), if_neg (by simp)]
      exact ih acc
    · have hv : v = c1 ∨ v = c2 := by
        have hp := List.find?_some hfind
        simp only [Bool.or_eq_true, beq_iff_eq] at hp
        exact hp
      rcases hv with rfl | rfl
      · rw [countStep_first acc hfind]
        rw [if_pos (by simp), if_neg (by simp; omega)]
        rw [ih]
        dsimp only
        simp only [List.length_cons, Prod.mk.injEq, and_true, true_and]
        omega
      · rw [countStep_second acc hfind (by omega)]
        rw [if_neg (by simp; omega), if_pos (by simp)]
        rw [ih]
        dsimp only
        simp only [List.length_cons, Prod.mk.injEq, and_true, true_and]
        omega

theorem countPairwiseElection_spec {c1 c2 : Nat} (hne : c1 ≠ c2)
    (ballots : List (List Nat)) :
    countPairwiseElection ballots c1 c2 =
      ((ballots.filter fun b => b.find? (fun x => x == c1 || x == c2) == some c1).length,
       (ballots.filter fun b => b.find? (fun x => x == c1 || x == c2) == some c2).length) := by
  rw [countPairwiseElection, countPairwise_aux hne]
  simp

theorem countPairwiseElection_swap {c1 c2 : Nat} (hne : c1 ≠ c2)
    (ballots : List (List Nat)) :
    countPairwiseElection ballots c1 c2 =
      ((countPairwiseElection ballots c2 c1).2, (countPairwiseElection ballots c2 c1).1) := by
  rw [countPairwiseElection_spec hne, countPairwiseElection_spec (Ne.symm hne)]
  have hfc : ∀ b : List Nat,
      (b.find? fun x => x == c1 || x == c2) = b.find? fun x => x == c2 || x == c1 :=
    fun b => find?_congr b fun a => Bool.or_comm _ _
  rw [Prod.mk.injEq]
  constructor <;> · congr 1
                    apply List.filter_congr
                    intro b _
                    rw [hfc b]

/-! ## The margin table -/

theorem memTable_nil (m : Nat) (e : Nat × Nat) : ¬ memTable [] m e := by
  rintro ⟨s, hs, _⟩
  cases hs

theorem memTable_cons {k : Nat} {s : List (Nat × Nat)}
    {tbl : List (Nat × List (Nat × Nat))} {m : Nat} {e : Nat × Nat} :
    memTable ((k, s) :: tbl) m e ↔ (m = k ∧ e ∈ s) ∨ memTable tbl m e := by
  constructor
  · rintro ⟨s', hs', he'⟩
    rcases List.mem_cons.mp hs' with h | h
    · injection h with h1 h2
      subst h1; subst h2
      exact Or.inl ⟨rfl, he'⟩
    · exact Or.inr ⟨s', h, he'⟩
  · rintro (⟨rfl, he⟩ | ⟨s', hs', he'⟩)
    · exact ⟨s, List.mem_cons_self _ _, he⟩
    · exact ⟨s', List.mem_cons.mpr (Or.inr hs'), he'⟩

theorem mem_insertMargin (tbl : List (Nat × List (Nat × Nat))) (m : Nat)
    (e : Nat × Nat) (m' : Nat) (e' : Nat × Nat) :
    memTable (insertMargin tbl m e) m' e' ↔ (m' = m ∧ e' = e) ∨ memTable tbl m' e' := by
  induction tbl with
  | nil =>
    rw [insertMargin]
    rw [memTable_cons]
    simp [memTable_nil]
  | cons kv rest ih =>
    rcases kv with ⟨k, s⟩
    rw [insertMargin]
    by_cases h1 : m < k
    · rw [if_pos h1, memTable_cons, memTable_cons]
      simp only [List.mem_singleton]
    · by_cases h2 : m = k
      · subst h2
        rw [if_neg h1, if_pos rfl, memTable_cons, memTable_cons, mem_insertEdge]
        tauto
      · rw [if_neg h1, if_neg h2, memTable_cons, memTable_cons, ih]
        tauto

theorem drop_range' : ∀ (k s m : Nat), (List.range' s m).drop k = List.range' (s + k) (m - k) := by
  intro k
  induction k with
  | zero => intro s m; simp
  | succ k ih =>
    intro s m
    cases m with
    | zero => simp
    | succ m =>
      rw [List.range'_succ, List.drop_succ_cons, ih (s + 1) m]
      congr 1 <;> omega

theorem mem_allPairs {n : Nat} {p : Nat × Nat} :
    p ∈ allPairs n ↔ p.1 < p.2 ∧ p.2 < n := by
  rcases p with ⟨c1, c2⟩
  simp only [allPairs, List.mem_flatMap, List.mem_map, List.mem_range]
  constructor
  · rintro ⟨a, ha, b, hb, heq⟩
    injection heq with h1 h2
    subst h1; subst h2
    rw [List.range_eq_range', drop_range'] at hb
    rcases List.mem_range'.mp hb with ⟨i, hi, hb⟩
    constructor <;> omega
  · rintro ⟨h1, h2⟩
    refine ⟨c1, by omega, c2, ?_, rfl⟩
    rw [List.range_eq_range', drop_range']
    exact List.mem_range'.mpr ⟨c2 - (c1 + 1), by omega, by omega⟩

theorem tabStep_lt {ballots : List (List Nat)} {p : Nat × Nat}
    (tbl : List (Nat × List (Nat × Nat)))
    (h1 : (countPairwiseElection ballots p.1 p.2).1 < (countPairwiseElection ballots p.1 p.2).2) :
    tabStep ballots tbl p = insertMargin tbl
      ((countPairwiseElection ballots p.1 p.2).2 - (countPairwiseElection ballots p.1 p.2).1)
      (p.2, p.1) := by
  rw [tabStep, if_pos h1]

theorem tabStep_gt {ballots : List (List Nat)} {p : Nat × Nat}
    (tbl : List (Nat × List (Nat × Nat)))
    (h1 : ¬ (countPairwiseElection ballots p.1 p.2).1 < (countPairwiseElection ballots p.1 p.2).2)
    (h2 : (countPairwiseElection ballots p.1 p.2).2 < (countPairwiseElection ballots p.1 p.2).1) :
    tabStep ballots tbl p = insertMargin tbl
      ((countPairwiseElection ballots p.1 p.2).1 - (countPairwiseElection ballots p.1 p.2).2)
      (p.1, p.2) := by
  rw [tabStep, if_neg h1, if_pos h2]

theorem tabStep_tie {ballots : List (List Nat)} {p : Nat × Nat}
    (tbl : List (Nat × List (Nat × Nat)))
    (h1 : ¬ (countPairwiseElection ballots p.1 p.2).1 < (countPairwiseElection ballots p.1 p.2).2)
    (h2 : ¬ (countPairwiseElection ballots p.1 p.2).2 < (countPairwiseElection ballots p.1 p.2).1) :
    tabStep ballots tbl p = tbl := by
  rw [tabStep, if_neg h1, if_neg h2]

theorem memTable_fold (ballots : List (List Nat)) (m : Nat) (e : Nat × Nat) :
    ∀ (pairs : List (Nat × Nat)) (tbl : List (Nat × List (Nat × Nat))),
      memTable (pairs.foldl (tabStep ballots) tbl) m e ↔
      memTable tbl m e ∨ ∃ p ∈ pairs,
        ((countPairwiseElection ballots p.1 p.2).1 < (countPairwiseElection ballots p.1 p.2).2 ∧
            e = (p.2, p.1) ∧
            m = (countPairwiseElection ballots p.1 p.2).2 -
              (countPairwiseElection ballots p.1 p.2).1) ∨
          ((countPairwiseElection ballots p.1 p.2).2 < (countPairwiseElection ballots p.1 p.2).1 ∧
            e = (p.1, p.2) ∧
            m = (countPairwiseElection ballots p.1 p.2).1 -
              (countPairwiseElection ballots p.1 p.2).2) := by
  intro pairs
  induction pairs with
  | nil => intro tbl; simp
  | cons p ps ih =>
    intro tbl
    rw [List.foldl_cons, ih]
    simp only [List.mem_cons]
    by_cases h1 : (countPairwiseElection ballots p.1 p.2).1 <
        (countPairwiseElection ballots p.1 p.2).2
    · rw [tabStep_lt tbl h1, mem_insertMargin]
      constructor
      · rintro ((⟨rfl, rfl⟩ | h) | ⟨q, hq, hcq⟩)
        · exact Or.inr ⟨p, Or.inl rfl, Or.inl ⟨h1, rfl, rfl⟩⟩
        · exact Or.inl h
        · exact Or.inr ⟨q, Or.inr hq, hcq⟩
      · rintro (h | ⟨q, (rfl | hq), hcq⟩)
        · exact Or.inl (Or.inr h)
        · rcases hcq with ⟨_, rfl, rfl⟩ | ⟨h2, _, _⟩
          · exact Or.inl (Or.inl ⟨rfl, rfl⟩)
          · omega
        · exact Or.inr ⟨q, hq, hcq⟩
    · by_cases h2 : (countPairwiseElection ballots p.1 p.2).2 <
          (countPairwiseElection ballots p.1 p.2).1
      · rw [tabStep_gt tbl h1 h2, mem_insertMargin]
        constructor
        · rintro ((⟨rfl, rfl⟩ | h) | ⟨q, hq, hcq⟩)
          · exact Or.inr ⟨p, Or.inl rfl, Or.inr ⟨h2, rfl, rfl⟩⟩
          · exact Or.inl h
          · exact Or.inr ⟨q, Or.inr hq, hcq⟩
        · rintro (h | ⟨q, (rfl | hq), hcq⟩)
          · exact Or.inl (Or.inr h)
          · rcases hcq with ⟨h3, _, _⟩ | ⟨_, rfl, rfl⟩
            · omega
            · exact Or.inl (Or.inl ⟨rfl, rfl⟩)
          · exact Or.inr ⟨q, hq, hcq⟩
      · rw [tabStep_tie tbl h1 h2]
        constructor
        · rintro (h | ⟨q, hq, hcq⟩)
          · exact Or.inl h
          · exact Or.inr ⟨q, Or.inr hq, hcq⟩
        · rintro (h | ⟨q, (rfl | hq), hcq⟩)
          · exact Or.inl h
          · rcases hcq with ⟨h3, _, _⟩ | ⟨h3, _, _⟩ <;> omega
          · exact Or.inr ⟨q, hq, hcq⟩

/-- Membership in the tabulated margin table is exactly `tableEntry`. -/
theorem memTable_tabulate (ballots : List (List Nat)) (n m : Nat) (e : Nat × Nat) :
    memTable (tabulatePairwiseResults ballots n) m e ↔ tableEntry ballots n m e := by
  rw [tabulatePairwiseResults]
  by_cases hn : n < 2
  · rw [if_pos hn]
    constructor
    · intro h; exact absurd h (memTable_nil m e)
    · rintro ⟨c1, c2, h1, h2, _⟩; omega
  · rw [if_neg hn, memTable_fold]
    constructor
    · rintro (h | ⟨p, hp, hcq⟩)
      · exact absurd h (memTable_nil m e)
      · rcases mem_allPairs.mp hp with ⟨h1, h2⟩
        exact ⟨p.1, p.2, h1, h2, by tauto⟩
    · rintro ⟨c1, c2, h1, h2, h3⟩
      refine Or.inr ⟨(c1, c2), mem_allPairs.mpr ⟨h1, h2⟩, ?_⟩
      tauto

/-! ## Sorted candidate sets and roots -/

theorem mem_insertSortedNat (l : List Nat) (x y : Nat) :
    y ∈ insertSortedNat l x ↔ y = x ∨ y ∈ l := by
  induction l with
  | nil => simp [insertSortedNat]
  | cons z zs ih =>
    by_cases h1 : x < z
    · simp only [insertSortedNat, if_pos h1, List.mem_cons]
    · by_cases h2 : x = z
      · subst h2
        simp [insertSortedNat, h1]
      · simp only [insertSortedNat, if_neg h1, if_neg h2, List.mem_cons]
        rw [ih]; tauto

theorem pairwise_insertSortedNat {l : List Nat} (x : Nat)
    (h : List.Pairwise (· < ·) l) : List.Pairwise (· < ·) (insertSortedNat l x) := by
  induction l with
  | nil => simp [insertSortedNat]
  | cons z zs ih =>
    rcases List.pairwise_cons.mp h with ⟨hz, hzs⟩
    by_cases h1 : x < z
    · rw [insertSortedNat, if_pos h1]
      exact List.pairwise_cons.mpr ⟨fun y hy => by
        rcases List.mem_cons.mp hy with rfl | hy
        · exact h1
        · exact lt_trans h1 (hz y hy), h⟩
    · by_cases h2 : x = z
      · subst h2; rw [insertSortedNat, if_neg h1, if_pos rfl]; exact h
      · rw [insertSortedNat, if_neg h1, if_neg h2]
        refine List.pairwise_cons.mpr ⟨fun y hy => ?_, ih hzs⟩
        rcases (mem_insertSortedNat zs x y).mp hy with rfl | hy
        · omega
        · exact hz y hy

theorem mem_foldl_insertSortedNat (l : List Nat) :
    ∀ (acc : List Nat) (y : Nat), y ∈ l.foldl insertSortedNat acc ↔ y ∈ acc ∨ y ∈ l := by
  induction l with
  | nil => intro acc y; simp
  | cons x xs ih =>
    intro acc y
    rw [List.foldl_cons, ih, mem_insertSortedNat]
    simp only [List.mem_cons]
    tauto

theorem pairwise_foldl_insertSortedNat (l : List Nat) :
    ∀ (acc : List Nat), List.Pairwise (· < ·) acc →
      List.Pairwise (· < ·) (l.foldl insertSortedNat acc) := by
  induction l with
  | nil => intro acc h; exact h
  | cons x xs ih =>
    intro acc h
    exact ih _ (pairwise_insertSortedNat x h)

theorem sorted_eq_of_mem_iff : ∀ {l1 l2 : List Nat},
    List.Pairwise (· < ·) l1 → List.Pairwise (· < ·) l2 →
    (∀ x, x ∈ l1 ↔ x ∈ l2) → l1 = l2 := by
  intro l1
  induction l1 with
  | nil =>
    intro l2 _ _ hm
    cases l2 with
    | nil => rfl
    | cons y ys => exact absurd ((hm y).mpr (by simp)) (by simp)
  | cons x xs ih =>
    intro l2 h1 h2 hm
    cases l2 with
    | nil => exact absurd ((hm x).mp (by simp)) (by simp)
    | cons y ys =>
      rcases List.pairwise_cons.mp h1 with ⟨hx, hxs⟩
      rcases List.pairwise_cons.mp h2 with ⟨hy, hys⟩
      have hxy : x = y := by
        rcases List.mem_cons.mp ((hm x).mp (by simp)) with h | h
        · exact h
        · rcases List.mem_cons.mp ((hm y).mpr (by simp)) with h' | h'
          · omega
          · have := hy x h
            have := hx y h'
            omega
      subst hxy
      have hm' : ∀ z, z ∈ xs ↔ z ∈ ys := by
        intro z
        constructor
        · intro hz
          rcases List.mem_cons.mp ((hm z).mp (List.mem_cons.mpr (Or.inr hz))) with h | h
          · have := hx z hz; omega
          · exact h
        · intro hz
          rcases List.mem_cons.mp ((hm z).mpr (List.mem_cons.mpr (Or.inr hz))) with h | h
          · have := hy z hz; omega
          · exact h
      rw [ih hxs hys hm']

theorem mem_roots {g : AcyclicGraph} {v : Nat} :
    v ∈ g.roots ↔ v < g.nodes ∧ ∀ e ∈ g.edges, e.2 ≠ v := by
  rw [AcyclicGraph.roots]
  rw [List.mem_filter, List.mem_range]
  simp only [List.all_eq_true, decide_eq_true_eq]

theorem pairwise_roots (g : AcyclicGraph) : List.Pairwise (· < ·) g.roots :=
  (List.pairwise_lt_range g.nodes).filter _

/-- In a graph whose every node below `n` has an in-range predecessor, some
node reaches itself: walking predecessors `n + 1` times repeats a node. -/
theorem cycle_of_all_preds {g : AcyclicGraph} {n : Nat} (hn : 1 ≤ n)
    (hpred : ∀ v, v < n → ∃ u, (u, v) ∈ g.edges ∧ u < n) : ¬ Acyclic g := by
  intro hac
  let F : Nat → {v : Nat // v < n} := fun k =>
    Nat.rec ⟨0, hn⟩ (fun _ p => ⟨(hpred p.1 p.2).choose,
      (hpred p.1 p.2).choose_spec.2⟩) k
  have hFedge : ∀ k, ((F (k + 1)).1, (F k).1) ∈ g.edges := fun k =>
    (hpred (F k).1 (F k).2).choose_spec.1
  have hdesc : ∀ i d, Reaches g (F (i + d + 1)).1 (F i).1 := by
    intro i d
    induction d with
    | zero => exact Reaches.single (hFedge i)
    | succ d ih =>
      have h1 : i + (d + 1) + 1 = (i + d + 1) + 1 := by omega
      rw [h1]
      exact Reaches.cons (hFedge (i + d + 1)) ih
  obtain ⟨i, _, j, _, hij, hFij⟩ :=
    Finset.exists_ne_map_eq_of_card_lt_of_maps_to
      (s := Finset.range (n + 1)) (t := Finset.range n)
      (by simp) (fun a _ => Finset.mem_range.mpr (F a).2)
  rcases Nat.lt_or_ge i j with hlt | hge
  · obtain ⟨d, rfl⟩ : ∃ d, j = i + d + 1 := ⟨j - i - 1, by omega⟩
    have := hdesc i d
    rw [hFij] at this
    exact hac _ this
  · have hlt : j < i := by omega
    obtain ⟨d, rfl⟩ : ∃ d, i = j + d + 1 := ⟨i - j - 1, by omega⟩
    have := hdesc j d
    rw [← hFij] at this
    exact hac _ this

theorem roots_nonempty {g : AcyclicGraph} {n : Nat} (hg : GoodGraph n g)
    (hn : 1 ≤ n) : g.roots ≠ [] := by
  rcases hg with ⟨_, hac, hnodes, hrange⟩
  intro hnil
  refine cycle_of_all_preds hn ?_ hac
  intro v hv
  have hvr : v ∉ g.roots := by rw [hnil]; simp
  rw [mem_roots] at hvr
  push_neg at hvr
  rcases hvr (by omega) with ⟨e, he, hev⟩
  exact ⟨e.1, by rw [← hev]; exact he, (hrange e he).1⟩

/-! ## The working set of graphs -/

theorem good_new (n : Nat) : GoodGraph n (AcyclicGraph.new n) :=
  ⟨wf_new n, acyclic_new n, rfl, by intro e he; cases he⟩

theorem tryAddEdge_good {n : Nat} {g : AcyclicGraph} (hg : GoodGraph n g)
    {src dst : Nat} (hs : src < n) (hd : dst < n) :
    GoodGraph n (g.tryAddEdge src dst).2 := by
  rcases hg with ⟨hwf, hac, hnodes, hrange⟩
  refine ⟨tryAddEdge_wf hwf src dst, tryAddEdge_acyclic hwf hac src dst, ?_, ?_⟩
  · rw [tryAddEdge_nodes, hnodes]
  · intro e he
    rcases tryAddEdge_edges_sub g src dst e he with h | rfl
    · exact hrange e h
    · exact ⟨hs, hd⟩

theorem addMatches_good {n : Nat} {ms : List (Nat × Nat)}
    (hms : ∀ e ∈ ms, e.1 < n ∧ e.2 < n) :
    ∀ {g : AcyclicGraph}, GoodGraph n g → GoodGraph n (addMatches g ms) := by
  induction ms with
  | nil => intro g hg; exact hg
  | cons e es ih =>
    intro g hg
    rw [addMatches, List.foldl_cons]
    exact ih (fun e' he' => hms e' (by simp [he']))
      (tryAddEdge_good hg (hms e (by simp)).1 (hms e (by simp)).2)

theorem addMatches_superset (ms : List (Nat × Nat)) :
    ∀ (g : AcyclicGraph) (e : Nat × Nat), e ∈ g.edges → e ∈ (addMatches g ms).edges := by
  induction ms with
  | nil => intro g e he; exact he
  | cons m ms ih =>
    intro g e he
    rw [addMatches, List.foldl_cons]
    exact ih _ e (tryAddEdge_edges_superset g m.1 m.2 e he)

theorem addMatches_sub (ms : List (Nat × Nat)) :
    ∀ (g : AcyclicGraph) (e : Nat × Nat),
      e ∈ (addMatches g ms).edges → e ∈ g.edges ∨ e ∈ ms := by
  induction ms with
  | nil => intro g e he; exact Or.inl he
  | cons m ms ih =>
    intro g e he
    rw [addMatches, List.foldl_cons] at he
    rcases ih _ e he with h | h
    · rcases tryAddEdge_edges_sub g m.1 m.2 e h with h' | rfl
      · exact Or.inl h'
      · exact Or.inr (by simp)
    · exact Or.inr (by simp [h])

theorem mem_stepGroup {graphs : List AcyclicGraph} {group : List (Nat × Nat)}
    {g' : AcyclicGraph} :
    g' ∈ stepGroup graphs group ↔
      ∃ g ∈ graphs, ∃ perm, perm.Perm group ∧ g' = addMatches g perm := by
  rw [stepGroup, List.mem_dedup, List.mem_flatMap]
  constructor
  · rintro ⟨g, hg, hmem⟩
    rcases List.mem_map.mp hmem with ⟨perm, hperm, rfl⟩
    exact ⟨g, hg, perm, List.mem_permutations'.mp hperm, rfl⟩
  · rintro ⟨g, hg, perm, hperm, rfl⟩
    exact ⟨g, hg, List.mem_map.mpr ⟨perm, List.mem_permutations'.mpr hperm, rfl⟩⟩

theorem stepGroup_ne_nil {graphs : List AcyclicGraph} {group : List (Nat × Nat)}
    (h : graphs ≠ []) : stepGroup graphs group ≠ [] := by
  rcases List.exists_mem_of_ne_nil _ h with ⟨g, hg⟩
  exact List.ne_nil_of_mem
    (mem_stepGroup.mpr ⟨g, hg, group, List.Perm.refl group, rfl⟩)

theorem foldl_stepGroup_good {n : Nat} :
    ∀ (gs : List (List (Nat × Nat))) (L : List AcyclicGraph),
      (∀ grp ∈ gs, ∀ e ∈ grp, e.1 < n ∧ e.2 < n) →
      (∀ g ∈ L, GoodGraph n g) → L ≠ [] →
      (∀ g ∈ gs.foldl stepGroup L, GoodGraph n g) ∧ gs.foldl stepGroup L ≠ [] := by
  intro gs
  induction gs with
  | nil => intro L _ hL hne; exact ⟨hL, hne⟩
  | cons grp gs ih =>
    intro L hgs hL hne
    rw [List.foldl_cons]
    refine ih _ (fun grp' h' => hgs grp' (by simp [h'])) ?_ (stepGroup_ne_nil hne)
    intro g hg
    rcases mem_stepGroup.mp hg with ⟨g0, hg0, perm, hperm, rfl⟩
    refine addMatches_good ?_ (hL g0 hg0)
    intro e he
    exact hgs grp (by simp) e (hperm.mem_iff.mp he)

theorem mem_tally {t : TabulatedData} {x : Nat} :
    x ∈ t.tally ↔ ∃ g ∈ finalGraphs t, x ∈ g.roots := by
  rw [TabulatedData.tally, mem_foldl_insertSortedNat]
  simp only [List.not_mem_nil, false_or, List.mem_flatMap]

theorem pairwise_tally (t : TabulatedData) : List.Pairwise (· < ·) t.tally :=
  pairwise_foldl_insertSortedNat _ _ List.Pairwise.nil

theorem mem_pairwiseResults {t : TabulatedData} {grp : List (Nat × Nat)} :
    grp ∈ t.pairwiseResults ↔ ∃ m, (m, grp) ∈ t.table := by
  rw [TabulatedData.pairwiseResults, List.mem_reverse, List.mem_map]
  constructor
  · rintro ⟨⟨m, s⟩, hm, rfl⟩
    exact ⟨m, hm⟩
  · rintro ⟨m, hm⟩
    exact ⟨(m, grp), hm, rfl⟩

/-! ## Validation -/

theorem validateBallot_none_iff (n : Nat) (b : List Nat) :
    ∀ seen, validateBallot n seen b = none ↔
      (∀ x ∈ b, x < n) ∧ b.Nodup ∧ ∀ x ∈ b, x ∉ seen := by
  induction b with
  | nil => intro seen; simp [validateBallot]
  | cons x xs ih =>
    intro seen
    rw [validateBallot]
    by_cases h1 : n ≤ x
    · rw [if_pos h1]
      constructor
      · intro h; cases h
      · rintro ⟨hr, _, _⟩
        exact absurd (hr x (by simp)) (by omega)
    · rw [if_neg h1]
      by_cases h2 : x ∈ seen
      · rw [if_pos h2]
        constructor
        · intro h; cases h
        · rintro ⟨_, _, hs⟩
          exact absurd h2 (hs x (by simp))
      · rw [if_neg h2, ih (x :: seen)]
        constructor
        · rintro ⟨hr, hnd, hs⟩
          refine ⟨?_, ?_, ?_⟩
          · intro y hy
            rcases List.mem_cons.mp hy with rfl | hy
            · omega
            · exact hr y hy
          · refine List.nodup_cons.mpr ⟨fun hx => ?_, hnd⟩
            exact hs x hx (by simp)
          · intro y hy
            rcases List.mem_cons.mp hy with rfl | hy
            · exact h2
            · intro hc
              exact hs y hy (by simp [hc])
        · rintro ⟨hr, hnd, hs⟩
          rcases List.nodup_cons.mp hnd with ⟨hx, hnd'⟩
          refine ⟨fun y hy => hr y (by simp [hy]), hnd', ?_⟩
          intro y hy hc
          rcases List.mem_cons.mp hc with rfl | hc
          · exact hx hy
          · exact hs y (by simp [hy]) hc

theorem validateBallot_ne_candidate (n : Nat) (b : List Nat) :
    ∀ seen, (∀ x ∈ b, x < n) →
      validateBallot n seen b ≠ some .invalidCandidate := by
  induction b with
  | nil => intro seen _ h; cases h
  | cons x xs ih =>
    intro seen hr
    rw [validateBallot, if_neg (by have := hr x (by simp); omega)]
    by_cases h2 : x ∈ seen
    · rw [if_pos h2]
      intro h
      cases h
    · rw [if_neg h2]
      exact ih (x :: seen) fun y hy => hr y (by simp [hy])

theorem validateBallot_ne_ballot (n : Nat) (b : List Nat) :
    ∀ seen, b.Nodup → (∀ x ∈ b, x ∉ seen) →
      validateBallot n seen b ≠ some .invalidBallot := by
  induction b with
  | nil => intro seen _ _ h; cases h
  | cons x xs ih =>
    intro seen hnd hs
    rcases List.nodup_cons.mp hnd with ⟨hx, hnd'⟩
    rw [validateBallot]
    by_cases h1 : n ≤ x
    · rw [if_pos h1]
      intro h
      cases h
    · rw [if_neg h1, if_neg (hs x (by simp))]
      refine ih (x :: seen) hnd' ?_
      intro y hy hc
      rcases List.mem_cons.mp hc with rfl | hc
      · exact hx hy
      · exact hs y (by simp [hy]) hc

theorem validateBallots_none_iff (ballots : List (List Nat)) (n : Nat) :
    validateBallots ballots n = none ↔
      ∀ b ∈ ballots, (∀ x ∈ b, x < n) ∧ b.Nodup := by
  rw [validateBallots, List.findSome?_eq_none_iff]
  constructor
  · intro h b hb
    rcases (validateBallot_none_iff n b []).mp (h b hb) with ⟨h1, h2, _⟩
    exact ⟨h1, h2⟩
  · intro h b hb
    exact (validateBallot_none_iff n b []).mpr
      ⟨(h b hb).1, (h b hb).2, by simp⟩

theorem validateBallots_ne_ballot {ballots : List (List Nat)} {n : Nat}
    (h : ∀ b ∈ ballots, b.Nodup) :
    validateBallots ballots n ≠ some .invalidBallot := by
  induction ballots with
  | nil => intro hc; cases hc
  | cons b bs ih =>
    rw [validateBallots, List.findSome?_cons]
    rcases hb : validateBallot n [] b with _ | e
    · exact ih fun b' hb' => h b' (by simp [hb'])
    · intro hc
      cases e with
      | invalidBallot =>
        exact validateBallot_ne_ballot n b [] (h b (by simp)) (by simp) hb
      | invalidCandidate => cases hc

theorem validateBallots_ne_candidate {ballots : List (List Nat)} {n : Nat}
    (h : ∀ b ∈ ballots, ∀ x ∈ b, x < n) :
    validateBallots ballots n ≠ some .invalidCandidate := by
  induction ballots with
  | nil => intro hc; cases hc
  | cons b bs ih =>
    rw [validateBallots, List.findSome?_cons]
    rcases hb : validateBallot n [] b with _ | e
    · exact ih fun b' hb' => h b' (by simp [hb'])
    · intro hc
      cases e with
      | invalidCandidate =>
        exact validateBallot_ne_candidate n b [] (h b (by simp)) hb
      | invalidBallot => cases hc

theorem fromBallots_none {ballots : List (List Nat)} {n : Nat}
    (h : validateBallots ballots n = none) :
    TabulatedData.fromBallots ballots n = .ok ⟨tabulatePairwiseResults ballots n, n⟩ := by
  rw [TabulatedData.fromBallots, h]

theorem fromBallots_some {ballots : List (List Nat)} {n : Nat} {e : Error}
    (h : validateBallots ballots n = some e) :
    TabulatedData.fromBallots ballots n = .error e := by
  rw [TabulatedData.fromBallots, h]

theorem tally_ok {ballots : List (List Nat)} {n : Nat}
    (h : validateBallots ballots n = none) :
    tally ballots n =
      .ok (TabulatedData.tally ⟨tabulatePairwiseResults ballots n, n⟩) := by
  rw [tally, fromBallots_none h]
  rfl

theorem tally_error {ballots : List (List Nat)} {n : Nat} {e : Error}
    (h : validateBallots ballots n = some e) :
    tally ballots n = .error e := by
  rw [tally, fromBallots_some h]
  rfl

theorem tally_error_iff {ballots : List (List Nat)} {n : Nat} {e : Error} :
    tally ballots n = .error e ↔ validateBallots ballots n = some e := by
  rcases h : validateBallots ballots n with _ | e'
  · rw [tally_ok h]
    constructor
    · intro hc; cases hc
    · intro hc; cases hc
  · rw [tally_error h]
    constructor
    · intro hc
      injection hc with hc
      rw [hc]
    · intro hc
      injection hc with hc
      rw [hc]

theorem tally_ok_iff {ballots : List (List Nat)} {n : Nat} {w : List Nat} :
    tally ballots n = .ok w ↔ validateBallots ballots n = none ∧
      w = TabulatedData.tally ⟨tabulatePairwiseResults ballots n, n⟩ := by
  rcases h : validateBallots ballots n with _ | e'
  · rw [tally_ok h]
    constructor
    · intro hc
      injection hc with hc
      exact ⟨rfl, hc.symm⟩
    · rintro ⟨_, rfl⟩
      rfl
  · rw [tally_error h]
    constructor
    · intro hc; cases hc
    · rintro ⟨hc, _⟩; cases hc

/-! ## Invariants of `applyOps` and the empty election -/

theorem foldl_tryAdd_inv :
    ∀ (ops : List (Nat × Nat)) (g : AcyclicGraph), WF g → Acyclic g →
      WF (ops.foldl (fun g e => (g.tryAddEdge e.1 e.2).2) g) ∧
        Acyclic (ops.foldl (fun g e => (g.tryAddEdge e.1 e.2).2) g) := by
  intro ops
  induction ops with
  | nil => intro g hwf hac; exact ⟨hwf, hac⟩
  | cons op ops ih =>
    intro g hwf hac
    rw [List.foldl_cons]
    exact ih _ (tryAddEdge_wf hwf op.1 op.2) (tryAddEdge_acyclic hwf hac op.1 op.2)

theorem applyOps_wf (n : Nat) (ops : List (Nat × Nat)) : WF (applyOps n ops) :=
  (foldl_tryAdd_inv ops _ (wf_new n) (acyclic_new n)).1

theorem applyOps_acyclic (n : Nat) (ops : List (Nat × Nat)) : Acyclic (applyOps n ops) :=
  (foldl_tryAdd_inv ops _ (wf_new n) (acyclic_new n)).2

theorem foldl_tabStep_empty : ∀ (pairs : List (Nat × Nat))
    (tbl : List (Nat × List (Nat × Nat))), pairs.foldl (tabStep []) tbl = tbl := by
  intro pairs
  induction pairs with
  | nil => intro tbl; rfl
  | cons p ps ih =>
    intro tbl
    rw [List.foldl_cons, tabStep_tie tbl (by simp [countPairwiseElection])
      (by simp [countPairwiseElection]), ih]

theorem tabulate_nil (n : Nat) : tabulatePairwiseResults [] n = [] := by
  rw [tabulatePairwiseResults]
  split
  · rfl
  · exact foldl_tabStep_empty _ _

/-! ## The Condorcet argument: no edge ever enters the dominant candidate -/

theorem tryAdd_no_incoming {n : Nat} {g : AcyclicGraph} {c : Nat}
    (hg : GoodGraph n g) (hin : ∀ e ∈ g.edges, e.2 ≠ c) {d : Nat} (hcd : c ≠ d) :
    (c, d) ∈ (g.tryAddEdge c d).2.edges := by
  rcases hg with ⟨hwf, hac, _, _⟩
  rw [tryAddEdge_mem hwf hac]
  refine Or.inr ⟨rfl, hcd, ?_⟩
  intro hr
  rcases reaches_last_edge hr with ⟨x, hx⟩
  exact hin (x, c) hx rfl

theorem addMatches_ensures {n c : Nat} :
    ∀ (ms : List (Nat × Nat)) (g : AcyclicGraph), GoodGraph n g →
      (∀ e ∈ g.edges, e.2 ≠ c) →
      (∀ e ∈ ms, (e.1 < n ∧ e.2 < n) ∧ e.2 ≠ c) →
      (GoodGraph n (addMatches g ms) ∧ ∀ e ∈ (addMatches g ms).edges, e.2 ≠ c) ∧
        ∀ d, (c, d) ∈ ms → (c, d) ∈ (addMatches g ms).edges := by
  intro ms
  induction ms with
  | nil =>
    intro g hg hin _
    exact ⟨⟨hg, hin⟩, by intro d hd; cases hd⟩
  | cons m ms ih =>
    intro g hg hin hms
    have hm := hms m (by simp)
    have hstep : GoodGraph n (g.tryAddEdge m.1 m.2).2 :=
      tryAddEdge_good hg hm.1.1 hm.1.2
    have hstepin : ∀ e ∈ (g.tryAddEdge m.1 m.2).2.edges, e.2 ≠ c := by
      intro e he
      rcases tryAddEdge_edges_sub g m.1 m.2 e he with h | rfl
      · exact hin e h
      · exact hm.2
    have hrest := ih (g.tryAddEdge m.1 m.2).2 hstep hstepin
      fun e he => hms e (by simp [he])
    rw [addMatches, List.foldl_cons]
    refine ⟨hrest.1, ?_⟩
    intro d hd
    rcases List.mem_cons.mp hd with heq | hd
    · subst heq
      exact addMatches_superset ms _ _ (tryAdd_no_incoming hg hin (Ne.symm hm.2))
    · exact hrest.2 d hd

theorem stepGroup_ensures {n c : Nat} {L : List AcyclicGraph}
    {grp : List (Nat × Nat)}
    (hL : ∀ g ∈ L, GoodGraph n g ∧ ∀ e ∈ g.edges, e.2 ≠ c)
    (hgrp : ∀ e ∈ grp, (e.1 < n ∧ e.2 < n) ∧ e.2 ≠ c) :
    ∀ g' ∈ stepGroup L grp,
      (GoodGraph n g' ∧ ∀ e ∈ g'.edges, e.2 ≠ c) ∧
        ∀ d, (c, d) ∈ grp → (c, d) ∈ g'.edges := by
  intro g' hg'
  rcases mem_stepGroup.mp hg' with ⟨g, hg, perm, hperm, rfl⟩
  have hpm : ∀ e ∈ perm, (e.1 < n ∧ e.2 < n) ∧ e.2 ≠ c :=
    fun e he => hgrp e (hperm.mem_iff.mp he)
  have := addMatches_ensures perm g (hL g hg).1 (hL g hg).2 hpm
  exact ⟨this.1, fun d hd => this.2 d (hperm.mem_iff.mpr hd)⟩

theorem foldl_stepGroup_inv {n c : Nat} :
    ∀ (gs : List (List (Nat × Nat))) (L : List AcyclicGraph),
      (∀ grp ∈ gs, ∀ e ∈ grp, (e.1 < n ∧ e.2 < n) ∧ e.2 ≠ c) →
      (∀ g ∈ L, GoodGraph n g ∧ ∀ e ∈ g.edges, e.2 ≠ c) → L ≠ [] →
      (∀ g ∈ gs.foldl stepGroup L, GoodGraph n g ∧ ∀ e ∈ g.edges, e.2 ≠ c) ∧
        gs.foldl stepGroup L ≠ [] := by
  intro gs
  induction gs with
  | nil => intro L _ hL hne; exact ⟨hL, hne⟩
  | cons grp gs ih =>
    intro L hgs hL hne
    rw [List.foldl_cons]
    refine ih _ (fun grp' h' => hgs grp' (by simp [h'])) ?_ (stepGroup_ne_nil hne)
    intro g hg
    exact (stepGroup_ensures hL (hgs grp (by simp)) g hg).1

theorem foldl_stepGroup_ancestor :
    ∀ (gs : List (List (Nat × Nat))) (L : List AcyclicGraph) (g' : AcyclicGraph),
      g' ∈ gs.foldl stepGroup L → ∃ g ∈ L, ∀ e ∈ g.edges, e ∈ g'.edges := by
  intro gs
  induction gs with
  | nil => intro L g' hg'; exact ⟨g', hg', fun e he => he⟩
  | cons grp gs ih =>
    intro L g' hg'
    rw [List.foldl_cons] at hg'
    rcases ih _ g' hg' with ⟨g1, hg1, hsub⟩
    rcases mem_stepGroup.mp hg1 with ⟨g0, hg0, perm, _, rfl⟩
    exact ⟨g0, hg0, fun e he => hsub e (addMatches_superset perm g0 e he)⟩

/-! ## Refinement of `Dfs::next` against the spec's description -/

theorem foldl_min_eq : ∀ (xs : List Nat) (x : Nat), (∀ y ∈ xs, x ≤ y) →
    xs.foldl min x = x := by
  intro xs
  induction xs with
  | nil => intro x _; rfl
  | cons y ys ih =>
    intro x h
    rw [List.foldl_cons, min_eq_left (h y (by simp))]
    exact ih _ fun z hz => h z (by simp [hz])

theorem min?_sorted {l : List Nat} (h : List.Pairwise (· < ·) l) :
    l.min? = l.head? := by
  cases l with
  | nil => rfl
  | cons x xs =>
    rcases List.pairwise_cons.mp h with ⟨hx, _⟩
    show some (xs.foldl min x) = some x
    rw [foldl_min_eq xs x fun y hy => Nat.le_of_lt (hx y hy)]

theorem leastOutgoingAbove_none {g : AcyclicGraph} (hwf : WF g) (v : Nat) :
    leastOutgoingAbove g v none = (g.outgoing v).head? := by
  rw [leastOutgoingAbove]
  rw [show ((g.outgoing v).filter fun d =>
      match (none : Option Nat) with
      | none => true
      | some b => decide (b < d)) = g.outgoing v from List.filter_eq_self.mpr fun _ _ => rfl]
  exact min?_sorted (outgoing_pairwise hwf v)

theorem leastOutgoingAbove_some {g : AcyclicGraph} (hwf : WF g) (s d : Nat) :
    leastOutgoingAbove g s (some d) =
      ((g.outgoing s).filter fun x => decide (d < x)).head? := by
  rw [leastOutgoingAbove]
  exact min?_sorted ((outgoing_pairwise hwf s).filter _)

theorem backtrack_eq_specBacktrack {g : AcyclicGraph} (hwf : WF g) :
    ∀ stk : List (Nat × Nat),
      (match backtrack g stk with
        | some (e, stk') => some (e, (⟨stk', e.2⟩ : DfsState))
        | none => none) = specBacktrack g stk := by
  intro stk
  induction stk with
  | nil => rfl
  | cons last rest ih =>
    rcases last with ⟨s, d⟩
    rw [backtrack, specBacktrack, findNextEdge_eq hwf, leastOutgoingAbove_some hwf]
    rcases hhead : ((g.outgoing s).filter fun x => decide (d < x)).head? with _ | d'
    · exact ih
    · rfl

/-- The code's `Dfs::next` computes exactly the spec-worded deterministic
step: descend to the least-index destination, else resume at the next
outgoing edge of the most recently active node. -/
theorem dfsNext_eq_spec {g : AcyclicGraph} (hwf : WF g) (st : DfsState) :
    dfsNext g st = dfsSpecNext g st := by
  rw [dfsNext, dfsSpecNext, leastOutgoingAbove_none hwf]
  rcases hhead : (g.outgoing st.node).head? with _ | d
  · exact backtrack_eq_specBacktrack hwf st.visited
  · rfl

/-! ## The claims -/

/-- C1: starting from a freshly constructed `AcyclicGraph`, after every
individual call of any sequence of in-range `tryAddEdge` calls, the edge set
contains no directed cycle: no node reaches itself along edges. -/
theorem claim_C1_acyclic_invariant (n : Nat) (ops : List (Nat × Nat))
    (_hops : ∀ op ∈ ops, op.1 < n ∧ op.2 < n) :
    ∀ k, Acyclic (applyOps n (ops.take k)) :=
  fun k => applyOps_acyclic n (ops.take k)

theorem claim_C1_witness : Acyclic (applyOps 3 ([(0, 1), (1, 2), (2, 0)].take 3)) :=
  claim_C1_acyclic_invariant 3 [(0, 1), (1, 2), (2, 0)] (by decide) 3

/-- C3 counterexample: with the edge `(0, 1)` already present in a two-node
graph, the call `tryAddEdge 0 1` has `src ≠ dst` and no reverse
reachability, yet returns "not added" (and leaves the graph unchanged),
refuting "in every other case it inserts the edge and returns added". -/
theorem claim_C3_counterexample :
    (0 : Nat) ≠ 1 ∧
      ¬ Reaches ((AcyclicGraph.new 2).tryAddEdge 0 1).2 1 0 ∧
      (((AcyclicGraph.new 2).tryAddEdge 0 1).2.tryAddEdge 0 1) =
        (false, ((AcyclicGraph.new 2).tryAddEdge 0 1).2) := by
  refine ⟨by decide, ?_, by decide⟩
  intro h
  have he : (((AcyclicGraph.new 2).tryAddEdge 0 1).2).edges = [(0, 1)] := rfl
  cases h with
  | single h => rw [he] at h; simp at h
  | cons h _ => rw [he] at h; simp at h

/-- C3 (amended): for in-range `src`, `dst` on a well-formed acyclic graph,
`tryAddEdge` rejects without mutation when `src = dst` or `dst` already
reaches `src`; otherwise the edge `(src, dst)` is present afterwards, the
node count is unchanged, and "added" is returned exactly when the edge was
not already present (re-adding an existing edge returns "not added"). -/
theorem claim_C3_tryAddEdge (g : AcyclicGraph) (src dst : Nat)
    (hwf : WF g) (hac : Acyclic g) (_hs : src < g.nodes) (_hd : dst < g.nodes) :
    tryAddEdgeSpec g src dst := by
  refine ⟨fun h => tryAddEdge_reject hwf hac h,
    fun hne hnr => ⟨?_, tryAddEdge_nodes g src dst, ?_⟩⟩
  · rw [tryAddEdge_fst hwf hac]
    constructor
    · rintro ⟨_, _, h⟩; exact h
    · intro h; exact ⟨hne, hnr, h⟩
  · intro e
    rw [tryAddEdge_mem hwf hac]
    constructor
    · rintro (h | ⟨h, _, _⟩)
      · exact Or.inl h
      · exact Or.inr h
    · rintro (h | rfl)
      · exact Or.inl h
      · exact Or.inr ⟨rfl, hne, hnr⟩

theorem claim_C3_witness : tryAddEdgeSpec (AcyclicGraph.new 2) 0 1 :=
  claim_C3_tryAddEdge _ 0 1 (wf_new 2) (acyclic_new 2) (by decide) (by decide)

/-- C4: for a pair `c1 < c2 < n`, the win counts are the numbers of ballots
whose first mention of either candidate is `c1` (resp. `c2`); equal counts
put the pair in no margin group, and unequal counts put exactly the one
directed edge `(winner, loser)` in exactly the group keyed by the absolute
margin. -/
theorem claim_C4_tabulation (ballots : List (List Nat)) (n c1 c2 : Nat)
    (h1 : c1 < c2) (h2 : c2 < n) : tabulationSpec ballots n c1 c2 := by
  have hne : c1 ≠ c2 := by omega
  have hc := countPairwiseElection_spec hne ballots
  refine ⟨by rw [hc], by rw [hc], ?_⟩
  intro m e hmem
  rw [memTable_tabulate]
  constructor
  · rintro ⟨c1', c2', h1', h2', hdisj⟩
    rcases hmem with rfl | rfl
    · rcases hdisj with ⟨hlt, heq, hm⟩ | ⟨hlt, heq, hm⟩
      · injection heq with ha hb; omega
      · injection heq with ha hb
        subst ha; subst hb
        exact Or.inl ⟨hlt, rfl, hm⟩
    · rcases hdisj with ⟨hlt, heq, hm⟩ | ⟨hlt, heq, hm⟩
      · injection heq with ha hb
        subst ha; subst hb
        exact Or.inr ⟨hlt, rfl, hm⟩
      · injection heq with ha hb; omega
  · rintro (⟨hlt, rfl, rfl⟩ | ⟨hlt, rfl, rfl⟩)
    · exact ⟨c1, c2, h1, h2, Or.inr ⟨hlt, rfl, rfl⟩⟩
    · exact ⟨c1, c2, h1, h2, Or.inl ⟨hlt, rfl, rfl⟩⟩

theorem claim_C4_witness :
    (0 : Nat) < 1 ∧ (1 : Nat) < 2 ∧ tabulationSpec [[0, 1]] 2 0 1 :=
  ⟨by decide, by decide, claim_C4_tabulation [[0, 1]] 2 0 1 (by decide) (by decide)⟩

/-- C5: with no ballots, `tally` succeeds and returns the full candidate set
`{0, …, n-1}` — empty for `n = 0`, `{0}` for `n = 1`, all candidates
otherwise. -/
theorem claim_C5_no_ballots (n : Nat) : tally [] n = .ok (List.range n) := by
  have hval : validateBallots [] n = none := rfl
  rw [tally_ok hval, tabulate_nil]
  congr 1
  apply sorted_eq_of_mem_iff (pairwise_tally _) (List.pairwise_lt_range n)
  intro x
  rw [mem_tally, List.mem_range]
  constructor
  · rintro ⟨g, hg, hx⟩
    have hgeq : g = AcyclicGraph.new n := by
      have hfin : finalGraphs ⟨[], n⟩ = [AcyclicGraph.new n] := rfl
      rw [hfin] at hg
      simpa using hg
    subst hgeq
    exact (mem_roots.mp hx).1
  · intro hx
    refine ⟨AcyclicGraph.new n, ?_, ?_⟩
    · rw [show finalGraphs ⟨[], n⟩ = [AcyclicGraph.new n] from rfl]
      simp
    · rw [mem_roots]
      exact ⟨hx, by intro e he; cases he⟩

/-- C7: the tie scenario `8×[0,2], 4×[2,3,0,1], 2×[2,3,1], 2×[3,2]` with
four candidates yields the winner set `{0, 2}`. -/
theorem claim_C7_tie_scenario :
    tally (List.replicate 8 [0, 2] ++ List.replicate 4 [2, 3, 0, 1] ++
      List.replicate 2 [2, 3, 1] ++ List.replicate 2 [3, 2]) 4 = .ok [0, 2] := by
  rfl

/-- C8: `roots` returns exactly the nodes with no incoming edge — the full
node range minus every edge's destination — and is empty when the node
count is `0`. -/
theorem claim_C8_roots (g : AcyclicGraph) :
    (∀ v, v ∈ g.roots ↔ v < g.nodes ∧ ∀ e ∈ g.edges, e.2 ≠ v) ∧
      (g.nodes = 0 → g.roots = []) := by
  refine ⟨fun v => mem_roots, fun h => ?_⟩
  rw [AcyclicGraph.roots, h]
  rfl

theorem claim_C8_witness : (AcyclicGraph.new 0).roots = [] :=
  (claim_C8_roots (AcyclicGraph.new 0)).2 rfl

/-- C9 counterexample: in the diamond graph `0→1, 0→2, 1→3, 2→3, 3→4`
(built by `tryAddEdge` calls), the traversal from `0` takes the edge
`(3, 4)` twice — once per path reaching node `3` — refuting "no edge
already taken is ever revisited during one traversal". -/
theorem claim_C9_counterexample :
    dfsEdgeList (applyOps 5 [(0, 1), (0, 2), (1, 3), (2, 3), (3, 4)]) 0 =
        [(0, 1), (1, 3), (3, 4), (0, 2), (2, 3), (3, 4)] ∧
      ¬ (dfsEdgeList (applyOps 5 [(0, 1), (0, 2), (1, 3), (2, 3), (3, 4)]) 0).Nodup :=
  ⟨by decide, by decide⟩

/-- C9 (amended): on a well-formed graph the traversal is deterministic:
each `Dfs::next` step descends along the outgoing edge with the least
destination index, and backtracking resumes at the next (least strictly
larger) outgoing edge of the most recently active node — but an edge
reachable along several paths is taken once per path. -/
theorem claim_C9_dfs_step (g : AcyclicGraph) (st : DfsState) (hwf : WF g) :
    dfsNext g st = dfsSpecNext g st :=
  dfsNext_eq_spec hwf st

theorem claim_C9_witness :
    dfsNext (applyOps 3 [(0, 1), (0, 2)]) ⟨[], 0⟩ =
      dfsSpecNext (applyOps 3 [(0, 1), (0, 2)]) ⟨[], 0⟩ :=
  claim_C9_dfs_step _ _ (applyOps_wf 3 [(0, 1), (0, 2)])

/-- C2: `tally` (through `from_ballots`) fails exactly when validation
fails — some ballot holds an index `≥ candidateCount` or a repeated index —
before any winner is computed: an error return carries no winner set.  When
only out-of-range indices occur the error is `InvalidCandidate`; when only
duplicates occur it is `InvalidBallot`; the two concrete examples of the
spec behave accordingly. -/
theorem claim_C2_validation :
    (∀ (ballots : List (List Nat)) (n : Nat),
        (∃ e, tally ballots n = .error e) ↔
          ∃ b ∈ ballots, (∃ x ∈ b, n ≤ x) ∨ ¬ b.Nodup) ∧
      (∀ (ballots : List (List Nat)) (n : Nat), (∀ b ∈ ballots, b.Nodup) →
        (tally ballots n = .error .invalidCandidate ↔
          ∃ b ∈ ballots, ∃ x ∈ b, n ≤ x)) ∧
      (∀ (ballots : List (List Nat)) (n : Nat), (∀ b ∈ ballots, ∀ x ∈ b, x < n) →
        (tally ballots n = .error .invalidBallot ↔ ∃ b ∈ ballots, ¬ b.Nodup)) ∧
      tally [[1, 2], [0, 3]] 3 = .error .invalidCandidate ∧
      tally [[0, 1, 2], [0, 1, 0]] 3 = .error .invalidBallot := by
  refine ⟨?_, ?_, ?_, by rfl, by rfl⟩
  · intro ballots n
    constructor
    · rintro ⟨e, he⟩
      have hv := tally_error_iff.mp he
      by_contra hno
      push_neg at hno
      have hnone : validateBallots ballots n = none :=
        (validateBallots_none_iff _ _).mpr fun b hb =>
          ⟨fun x hx => (hno b hb).1 x hx, (hno b hb).2⟩
      rw [hnone] at hv
      cases hv
    · rintro ⟨b, hb, hbad⟩
      have hne : validateBallots ballots n ≠ none := by
        intro hnone
        have hall := (validateBallots_none_iff _ _).mp hnone
        rcases hbad with ⟨x, hx, hnx⟩ | hnd
        · exact absurd ((hall b hb).1 x hx) (by omega)
        · exact hnd (hall b hb).2
      rcases hv : validateBallots ballots n with _ | e
      · exact absurd hv hne
      · exact ⟨e, tally_error hv⟩
  · intro ballots n hnd
    constructor
    · intro he
      have hv := tally_error_iff.mp he
      have hne : ¬ ∀ b ∈ ballots, (∀ x ∈ b, x < n) ∧ b.Nodup := by
        intro hall
        rw [(validateBallots_none_iff _ _).mpr hall] at hv
        cases hv
      push_neg at hne
      rcases hne with ⟨b, hb, himp⟩
      by_cases hr : ∀ x ∈ b, x < n
      · exact absurd (hnd b hb) (himp hr)
      · push_neg at hr
        rcases hr with ⟨x, hx, hnx⟩
        exact ⟨b, hb, x, hx, by omega⟩
    · rintro ⟨b, hb, x, hx, hnx⟩
      have hne : validateBallots ballots n ≠ none := by
        intro hnone
        have hall := (validateBallots_none_iff _ _).mp hnone
        exact absurd ((hall b hb).1 x hx) (by omega)
      rcases hv : validateBallots ballots n with _ | e
      · exact absurd hv hne
      · cases e with
        | invalidBallot => exact absurd hv (validateBallots_ne_ballot hnd)
        | invalidCandidate => exact tally_error hv
  · intro ballots n hrange
    constructor
    · intro he
      have hv := tally_error_iff.mp he
      have hne : ¬ ∀ b ∈ ballots, (∀ x ∈ b, x < n) ∧ b.Nodup := by
        intro hall
        rw [(validateBallots_none_iff _ _).mpr hall] at hv
        cases hv
      push_neg at hne
      rcases hne with ⟨b, hb, himp⟩
      exact ⟨b, hb, himp (hrange b hb)⟩
    · rintro ⟨b, hb, hnd⟩
      have hne : validateBallots ballots n ≠ none := by
        intro hnone
        have hall := (validateBallots_none_iff _ _).mp hnone
        exact hnd (hall b hb).2
      rcases hv : validateBallots ballots n with _ | e
      · exact absurd hv hne
      · cases e with
        | invalidCandidate => exact absurd hv (validateBallots_ne_candidate hrange)
        | invalidBallot => exact tally_error hv

theorem claim_C2_witness : tally [[1, 2], [0, 3]] 3 = .error .invalidCandidate :=
  claim_C2_validation.2.2.2.1

/-- C6: if candidate `c` beats every other candidate pairwise (strictly more
ballots prefer `c` in every head-to-head contest), then on valid ballots
`tally` returns exactly `{c}`. -/
theorem claim_C6_condorcet (ballots : List (List Nat)) (n c : Nat) (hc : c < n)
    (hbeats : ∀ d, d < n → d ≠ c →
      (countPairwiseElection ballots c d).2 < (countPairwiseElection ballots c d).1)
    (hvalid : validateBallots ballots n = none) :
    tally ballots n = .ok [c] := by
  rw [tally_ok hvalid]
  congr 1
  have hgroups : ∀ grp ∈ (⟨tabulatePairwiseResults ballots n, n⟩ :
      TabulatedData).pairwiseResults,
      ∀ e ∈ grp, (e.1 < n ∧ e.2 < n) ∧ e.2 ≠ c := by
    intro grp hgrp e he
    rcases mem_pairwiseResults.mp hgrp with ⟨m, hm⟩
    rcases (memTable_tabulate ballots n m e).mp ⟨grp, hm, he⟩ with
      ⟨c1, c2, h1, h2, hdisj⟩
    constructor
    · rcases hdisj with ⟨_, rfl, _⟩ | ⟨_, rfl, _⟩ <;>
        exact ⟨by omega, by omega⟩
    · rcases hdisj with ⟨hlt, rfl, _⟩ | ⟨hlt, rfl, _⟩
      · show c1 ≠ c
        intro hc1
        subst hc1
        have := hbeats c2 h2 (by omega)
        omega
      · show c2 ≠ c
        intro hc2
        subst hc2
        have hsw := countPairwiseElection_swap (show c2 ≠ c1 by omega) ballots
        have hb := hbeats c1 (by omega) (by omega)
        rw [hsw] at hb
        dsimp only at hb
        omega
  have hL0 : ∀ g ∈ [AcyclicGraph.new n],
      GoodGraph n g ∧ ∀ e ∈ g.edges, e.2 ≠ c := by
    intro g hg
    rcases List.mem_singleton.mp hg with rfl
    exact ⟨good_new n, by intro e he; cases he⟩
  have hfold := foldl_stepGroup_inv _ [AcyclicGraph.new n] hgroups hL0 (by simp)
  have hcontains : ∀ g' ∈ finalGraphs ⟨tabulatePairwiseResults ballots n, n⟩,
      ∀ d, d < n → d ≠ c → (c, d) ∈ g'.edges := by
    intro g' hg' d hd hdc
    have hentry : ∃ m, tableEntry ballots n m (c, d) := by
      rcases Nat.lt_or_ge c d with hcd | hcd
      · exact ⟨_, c, d, hcd, hd,
          Or.inr ⟨hbeats d hd hdc, rfl, rfl⟩⟩
      · have hdc' : d < c := by omega
        have hsw := countPairwiseElection_swap (show d ≠ c from hdc) ballots
        have hb := hbeats d hd hdc
        have hlt : (countPairwiseElection ballots d c).1 <
            (countPairwiseElection ballots d c).2 := by
          rw [hsw]
          exact hb
        exact ⟨_, d, c, hdc', hc, Or.inl ⟨hlt, rfl, rfl⟩⟩
    rcases hentry with ⟨m, hentry⟩
    rcases (memTable_tabulate ballots n m (c, d)).mpr hentry with ⟨grp, hgrpmem, hin⟩
    have hgrpP : grp ∈ (⟨tabulatePairwiseResults ballots n, n⟩ :
        TabulatedData).pairwiseResults := mem_pairwiseResults.mpr ⟨m, hgrpmem⟩
    obtain ⟨l1, l2, hsplit⟩ := List.append_of_mem hgrpP
    rw [show finalGraphs ⟨tabulatePairwiseResults ballots n, n⟩ =
        (⟨tabulatePairwiseResults ballots n, n⟩ :
          TabulatedData).pairwiseResults.foldl stepGroup [AcyclicGraph.new n]
        from rfl, hsplit, List.foldl_append, List.foldl_cons] at hg'
    have hl1 : ∀ grp' ∈ l1, ∀ e ∈ grp', (e.1 < n ∧ e.2 < n) ∧ e.2 ≠ c := by
      intro grp' h'
      exact hgroups grp' (by rw [hsplit]; exact List.mem_append_left _ h')
    have hL1 := foldl_stepGroup_inv l1 [AcyclicGraph.new n] hl1 hL0 (by simp)
    have hgrpOK : ∀ e ∈ grp, (e.1 < n ∧ e.2 < n) ∧ e.2 ≠ c :=
      hgroups grp (by rw [hsplit]; exact List.mem_append_right _ (by simp))
    rcases foldl_stepGroup_ancestor l2 _ g' hg' with ⟨g'', hg'', hsub⟩
    exact hsub _ ((stepGroup_ensures hL1.1 hgrpOK g'' hg'').2 d hin)
  apply sorted_eq_of_mem_iff (pairwise_tally _) (by simp)
  intro x
  rw [mem_tally, List.mem_singleton]
  constructor
  · rintro ⟨g, hg, hx⟩
    have hP := hfold.1 g hg
    rcases mem_roots.mp hx with ⟨hxn, hnoin⟩
    rw [hP.1.2.2.1] at hxn
    by_contra hxc
    exact hnoin (c, x) (hcontains g hg x hxn hxc) rfl
  · rintro rfl
    rcases List.exists_mem_of_ne_nil _ hfold.2 with ⟨g, hg⟩
    refine ⟨g, hg, mem_roots.mpr ⟨?_, ?_⟩⟩
    · rw [(hfold.1 g hg).1.2.2.1]
      exact hc
    · intro e he
      exact (hfold.1 g hg).2 e he

theorem claim_C6_witness : tally [[0, 1]] 2 = .ok [0] :=
  claim_C6_condorcet [[0, 1]] 2 0 (by decide) (by decide) rfl

/-- C10: for every valid ballot sequence and at least one candidate, the
winner set is nonempty — the working set of graphs stays nonempty through
every margin group, and every acyclic graph with a node has a root. -/
theorem claim_C10_nonempty (ballots : List (List Nat)) (n : Nat) (w : List Nat)
    (hn : 1 ≤ n) (h : tally ballots n = .ok w) : w ≠ [] := by
  rcases tally_ok_iff.mp h with ⟨_, rfl⟩
  have hgroups : ∀ grp ∈ (⟨tabulatePairwiseResults ballots n, n⟩ :
      TabulatedData).pairwiseResults, ∀ e ∈ grp, e.1 < n ∧ e.2 < n := by
    intro grp hgrp e he
    rcases mem_pairwiseResults.mp hgrp with ⟨m, hm⟩
    rcases (memTable_tabulate ballots n m e).mp ⟨grp, hm, he⟩ with
      ⟨c1, c2, h1, h2, hdisj⟩
    rcases hdisj with ⟨_, rfl, _⟩ | ⟨_, rfl, _⟩ <;> exact ⟨by omega, by omega⟩
  have hfold := foldl_stepGroup_good _ [AcyclicGraph.new n] hgroups
    (by
      intro g hg
      rcases List.mem_singleton.mp hg with rfl
      exact good_new n)
    (by simp)
  rcases List.exists_mem_of_ne_nil _ hfold.2 with ⟨g, hg⟩
  rcases List.exists_mem_of_ne_nil _ (roots_nonempty (hfold.1 g hg) hn) with ⟨r, hr⟩
  exact List.ne_nil_of_mem (mem_tally.mpr ⟨g, hg, hr⟩)

theorem claim_C10_witness : ([0] : List Nat) ≠ [] :=
  claim_C10_nonempty [] 1 [0] (by decide) (by rfl)

end RankedPairs
